import Mathlib

/-!
Verification of the core components of the BERTopic Pro repository.

The Python modules are shallowly embedded as Lean definitions:

* app/core/workers/base_worker.py  — worker state, signals and the
  cancel / emit_progress / emit_finished methods;
* app/core/model_manager.py        — model metadata and the download /
  delete / cache-query operations, with the filesystem and the hub
  modelled explicitly;
* app/core/topic_analyzer.py       — TopicModelParams with its dict
  round-trip, the embedding cache, the topic count reported by train,
  and load_model over a saved-model directory;
* app/core/processor.py            — clean_text (URL / email / number /
  punctuation / lowercase / whitespace passes modelled at the character
  level with the exact regex semantics of the source patterns) and
  load_stopwords.

All definitions are executable; theorems about them follow after the
definitions.
-/

namespace BertopicPro

/-! ## Worker state and signals (app/core/workers/base_worker.py) -/

/-- A signal a worker can emit; mirrors the four Qt signals declared on
BaseWorker: progress(int), status(str), finished(object), error(Exception). -/
inductive WorkerSignal (ρ : Type) where
  | progressSig (v : Int)
  | statusSig (m : String)
  | finishedSig (r : ρ)
  | errorSig (e : String)
deriving DecidableEq

/-- Observable worker state: the `_is_cancelled` flag, the list of signals
delivered so far in emission order, and the side effects already committed by
the underlying operation (cache writes, saved files, ...), which no worker
method touches. -/
structure WorkerState (ρ : Type) where
  cancelled : Bool
  signals : List (WorkerSignal ρ)
  effects : List String
deriving DecidableEq

/-- A fresh worker: flag clear, nothing emitted, no side effects. -/
def initialWorker (ρ : Type) : WorkerState ρ :=
  { cancelled := false, signals := [], effects := [] }

/-- BaseWorker.cancel: sets `_is_cancelled` and emits the "Cancelling..."
status message.  Nothing in base_worker.py ever clears the flag. -/
def BaseWorker.cancel (w : WorkerState ρ) : WorkerState ρ :=
  { w with cancelled := true,
           signals := w.signals ++ [WorkerSignal.statusSig "Cancelling..."] }

/-- BaseWorker.emit_status: emits the status signal (logging omitted). -/
def BaseWorker.emitStatus (w : WorkerState ρ) (m : String) : WorkerState ρ :=
  { w with signals := w.signals ++ [WorkerSignal.statusSig m] }

/-- BaseWorker.emit_progress: clamps the value to 0..100 with
value = max(0, min(100, value)), emits the progress signal, and then the
status signal when a message is supplied. -/
def BaseWorker.emitProgress (w : WorkerState ρ) (value : Int)
    (msg : Option String) : WorkerState ρ :=
  let v := max 0 (min 100 value)
  let w1 := { w with signals := w.signals ++ [WorkerSignal.progressSig v] }
  match msg with
  | some m => BaseWorker.emitStatus w1 m
  | none => w1

/-- BaseWorker.emit_error: emits the error signal. -/
def BaseWorker.emitError (w : WorkerState ρ) (e : String) : WorkerState ρ :=
  { w with signals := w.signals ++ [WorkerSignal.errorSig e] }

/-- BaseWorker.emit_finished: delivers the finished signal only when the
cancellation flag is clear; when cancelled it only logs. -/
def BaseWorker.emitFinished (w : WorkerState ρ) (r : ρ) : WorkerState ρ :=
  if w.cancelled then w
  else { w with signals := w.signals ++ [WorkerSignal.finishedSig r] }

/-- The actions a running worker can perform on its observable state:
the BaseWorker methods, plus a committed side effect of the underlying
operation (e.g. an embedding-cache write or a saved model file). -/
inductive WorkerOp (ρ : Type) where
  | cancelOp
  | progressOp (v : Int) (msg : Option String)
  | statusOp (m : String)
  | errorOp (e : String)
  | finishOp (r : ρ)
  | effectOp (s : String)
deriving DecidableEq

/-- One step of worker execution. -/
def workerStep (w : WorkerState ρ) : WorkerOp ρ → WorkerState ρ
  | WorkerOp.cancelOp => BaseWorker.cancel w
  | WorkerOp.progressOp v msg => BaseWorker.emitProgress w v msg
  | WorkerOp.statusOp m => BaseWorker.emitStatus w m
  | WorkerOp.errorOp e => BaseWorker.emitError w e
  | WorkerOp.finishOp r => BaseWorker.emitFinished w r
  | WorkerOp.effectOp s => { w with effects := w.effects ++ [s] }

/-- Run a worker through a sequence of actions. -/
def workerRun (w : WorkerState ρ) (ops : List (WorkerOp ρ)) : WorkerState ρ :=
  ops.foldl workerStep w

/-- The results delivered through the finished signal, in order. -/
def finishedResults (w : WorkerState ρ) : List ρ :=
  w.signals.filterMap fun s =>
    match s with
    | WorkerSignal.finishedSig r => some r
    | _ => none

/-- The values delivered through the progress signal, in order. -/
def progressValues (w : WorkerState ρ) : List Int :=
  w.signals.filterMap fun s =>
    match s with
    | WorkerSignal.progressSig v => some v
    | _ => none

/-! ## Model manager (app/core/model_manager.py) -/

/-- ModelMetadata: the record persisted per cached model.  The float
`size_mb` carries no arithmetic in the verified operations and is modelled
as a natural number. -/
structure ModelMetadata where
  model_name : String
  model_path : String
  model_type : String := "sentence-transformer"
  size_mb : Nat := 0
  download_date : Option String := none
  description : String := ""
  language : String := "multilingual"
  max_seq_length : Nat := 512
deriving DecidableEq

/-- Insert-or-replace into an association list, with Python dict assignment
semantics: an existing key keeps its position, a new key is appended. -/
def alistInsert {β : Type} (l : List (String × β)) (k : String) (v : β) :
    List (String × β) :=
  if (List.lookup k l).isSome then
    l.map fun p => if p.1 = k then (k, v) else p
  else
    l ++ [(k, v)]

/-- ModelManager state: the in-memory metadata dict (mirrored to
models_metadata.json), the set of directories existing on disk, and a
count of snapshot_download invocations (network accesses). -/
structure MMState where
  metadata : List (String × ModelMetadata)
  fsDirs : List String
  networkCalls : Nat
deriving DecidableEq

/-- The environment a download runs against: whether the hub has the
repository, the best-effort max_seq_length probe (None models a failed
SentenceTransformer load, degraded to the default 512), the computed
directory size, and the current timestamp. -/
structure HubEnv where
  available : String → Bool
  probeMaxSeq : String → Option Nat
  dirSize : String → Nat
  now : String

/-- ModelManager.is_model_cached: a metadata record exists and its recorded
path still exists on disk. -/
def ModelManager.isModelCached (st : MMState) (name : String) : Bool :=
  match List.lookup name st.metadata with
  | none => false
  | some m => st.fsDirs.contains m.model_path

/-- ModelManager.get_model_path: the recorded path, when cached. -/
def ModelManager.getModelPath (st : MMState) (name : String) : Option String :=
  if ModelManager.isModelCached st name then
    (List.lookup name st.metadata).map (fun m => m.model_path)
  else
    none

/-- model_name.replace('/', '--'): the deterministic local directory name a
model is downloaded into. -/
def replaceSlashes (s : String) : String :=
  String.mk (s.data.flatMap fun c => if c = '/' then ['-', '-'] else [c])

/-- ModelManager.download_model.  Returns the new state, the result
(`Except.error` for RepositoryNotFoundError, translated to ValueError in the
source), and the list of (percent, message) progress callbacks issued.
When `force` is false and the model is cached, it short-circuits: no state
change, no network call, a single 100% callback. -/
def ModelManager.downloadModel (cacheDir : String) (env : HubEnv)
    (st : MMState) (name : String) (force : Bool) :
    MMState × Except String String × List (Int × String) :=
  if !force && ModelManager.isModelCached st name then
    match ModelManager.getModelPath st name with
    | some p => (st, Except.ok p, [(100, "Model already cached")])
    | none => (st, Except.error "unreachable", [])
  else
    let path := cacheDir ++ "/" ++ replaceSlashes name
    let st1 : MMState := { st with networkCalls := st.networkCalls + 1 }
    if env.available name then
      let st2 : MMState :=
        { st1 with fsDirs := if st1.fsDirs.contains path then st1.fsDirs
                             else st1.fsDirs ++ [path] }
      let meta : ModelMetadata :=
        { model_name := name
          model_path := path
          size_mb := env.dirSize path
          download_date := some env.now
          max_seq_length := (env.probeMaxSeq path).getD 512 }
      let st3 : MMState := { st2 with metadata := alistInsert st2.metadata name meta }
      (st3, Except.ok path,
        [(5, "Downloading " ++ name ++ "..."),
         (80, "Download complete, validating..."),
         (100, "Download complete")])
    else
      (st1, Except.error ("Model " ++ name ++ " not found on HuggingFace Hub"),
        [(5, "Downloading " ++ name ++ "...")])

/-- ModelManager.delete_model: a missing metadata record returns false with
nothing changed; otherwise the directory tree (modelled as removal from the
set of existing directories) and the metadata record are removed. -/
def ModelManager.deleteModel (st : MMState) (name : String) : MMState × Bool :=
  match List.lookup name st.metadata with
  | none => (st, false)
  | some m =>
    ({ st with fsDirs := st.fsDirs.filter (fun d => d ≠ m.model_path),
               metadata := st.metadata.filter (fun p => p.1 ≠ name) }, true)

/-! ## TopicModelParams (app/core/topic_analyzer.py, lines 25-100) -/

/-- A value stored in the dictionary produced by TopicModelParams.to_dict. -/
inductive ParamValue where
  | pvStr (s : String)
  | pvNat (n : Nat)
  | pvFloat (x : Float)
  | pvBool (b : Bool)
  | pvPair (a b : Nat)
  | pvOptNat (o : Option Nat)

/-- TopicModelParams with the defaults of the source constructor
(config.py values inlined). -/
structure TopicModelParams where
  embedding_model : String := "sentence-transformers/paraphrase-multilingual-MiniLM-L12-v2"
  umap_n_neighbors : Nat := 15
  umap_n_components : Nat := 5
  umap_min_dist : Float := 0.0
  umap_metric : String := "cosine"
  hdbscan_min_cluster_size : Nat := 10
  hdbscan_min_samples : Nat := 10
  hdbscan_metric : String := "euclidean"
  top_n_words : Nat := 10
  ngram_range : Nat × Nat := (1, 2)
  min_topic_size : Nat := 10
  nr_topics : Option Nat := none
  calculate_probabilities : Bool := false
  verbose : Bool := true

/-- TopicModelParams.to_dict, keys in source order. -/
def TopicModelParams.toDict (p : TopicModelParams) : List (String × ParamValue) :=
  [("embedding_model", ParamValue.pvStr p.embedding_model),
   ("umap_n_neighbors", ParamValue.pvNat p.umap_n_neighbors),
   ("umap_n_components", ParamValue.pvNat p.umap_n_components),
   ("umap_min_dist", ParamValue.pvFloat p.umap_min_dist),
   ("umap_metric", ParamValue.pvStr p.umap_metric),
   ("hdbscan_min_cluster_size", ParamValue.pvNat p.hdbscan_min_cluster_size),
   ("hdbscan_min_samples", ParamValue.pvNat p.hdbscan_min_samples),
   ("hdbscan_metric", ParamValue.pvStr p.hdbscan_metric),
   ("top_n_words", ParamValue.pvNat p.top_n_words),
   ("ngram_range", ParamValue.pvPair p.ngram_range.1 p.ngram_range.2),
   ("min_topic_size", ParamValue.pvNat p.min_topic_size),
   ("nr_topics", ParamValue.pvOptNat p.nr_topics),
   ("calculate_probabilities", ParamValue.pvBool p.calculate_probabilities),
   ("verbose", ParamValue.pvBool p.verbose)]

/-- Read a string-valued key; a missing key falls back to the constructor
default, as cls(**data) does. -/
def pdGetStr (d : List (String × ParamValue)) (k : String) (dflt : String) : String :=
  match List.lookup k d with
  | some (ParamValue.pvStr s) => s
  | _ => dflt

/-- Read a Nat-valued key with constructor-default fallback. -/
def pdGetNat (d : List (String × ParamValue)) (k : String) (dflt : Nat) : Nat :=
  match List.lookup k d with
  | some (ParamValue.pvNat n) => n
  | _ => dflt

/-- Read a float-valued key with constructor-default fallback. -/
def pdGetFloat (d : List (String × ParamValue)) (k : String) (dflt : Float) : Float :=
  match List.lookup k d with
  | some (ParamValue.pvFloat x) => x
  | _ => dflt

/-- Read a bool-valued key with constructor-default fallback. -/
def pdGetBool (d : List (String × ParamValue)) (k : String) (dflt : Bool) : Bool :=
  match List.lookup k d with
  | some (ParamValue.pvBool b) => b
  | _ => dflt

/-- Read a pair-valued key with constructor-default fallback. -/
def pdGetPair (d : List (String × ParamValue)) (k : String) (dflt : Nat × Nat) : Nat × Nat :=
  match List.lookup k d with
  | some (ParamValue.pvPair a b) => (a, b)
  | _ => dflt

/-- Read an optional-Nat key with constructor-default fallback. -/
def pdGetOptNat (d : List (String × ParamValue)) (k : String) (dflt : Option Nat) : Option Nat :=
  match List.lookup k d with
  | some (ParamValue.pvOptNat o) => o
  | _ => dflt

/-- TopicModelParams.from_dict: cls(**data), each constructor argument taken
from the dictionary entry of the same name (constructor defaults apply to
missing keys). -/
def TopicModelParams.fromDict (d : List (String × ParamValue)) : TopicModelParams :=
  { embedding_model := pdGetStr d "embedding_model"
      "sentence-transformers/paraphrase-multilingual-MiniLM-L12-v2"
    umap_n_neighbors := pdGetNat d "umap_n_neighbors" 15
    umap_n_components := pdGetNat d "umap_n_components" 5
    umap_min_dist := pdGetFloat d "umap_min_dist" 0.0
    umap_metric := pdGetStr d "umap_metric" "cosine"
    hdbscan_min_cluster_size := pdGetNat d "hdbscan_min_cluster_size" 10
    hdbscan_min_samples := pdGetNat d "hdbscan_min_samples" 10
    hdbscan_metric := pdGetStr d "hdbscan_metric" "euclidean"
    top_n_words := pdGetNat d "top_n_words" 10
    ngram_range := pdGetPair d "ngram_range" (1, 2)
    min_topic_size := pdGetNat d "min_topic_size" 10
    nr_topics := pdGetOptNat d "nr_topics" none
    calculate_probabilities := pdGetBool d "calculate_probabilities" false
    verbose := pdGetBool d "verbose" true }

/-! ## Embedding cache (topic_analyzer.py, lines 179-297) -/

/-- The document fingerprint: the concatenation of the first 100 documents,
doc_string = ''.join(documents[:100]). -/
def embeddingFingerprint (docs : List String) : String :=
  String.join (docs.take 100)

/-- The cache file name, "embeddings_" + md5(doc_string) + ".joblib".
The md5 digest function is passed in abstractly. -/
def embeddingCachePath (md5 : String → String) (docs : List String) : String :=
  "embeddings_" ++ md5 (embeddingFingerprint docs) ++ ".joblib"

/-- Embedding-cache state: the cache directory contents (file name to stored
matrix) and the number of times the embedding model was invoked. -/
structure EmbCacheState (M : Type) where
  cache : List (String × M)
  modelInvocations : Nat
deriving DecidableEq

/-- The outcome of generate_embeddings: new state, returned matrix, and the
percentages passed to the progress callback in order. -/
structure GenResult (M : Type) where
  state : EmbCacheState M
  result : M
  progressLog : List Int
deriving DecidableEq

/-- TopicAnalyzer.generate_embeddings.  With use_cache, a cache file under
the fingerprint path is returned as-is with a single 100% callback; otherwise
the model is loaded and invoked on all documents (progress 10/30/90), the
result is written to the cache when use_cache is set, and 100% is reported. -/
def generateEmbeddings {M : Type} (md5 : String → String)
    (encode : List String → M) (st : EmbCacheState M)
    (docs : List String) (useCache : Bool) : GenResult M :=
  match useCache, List.lookup (embeddingCachePath md5 docs) st.cache with
  | true, some e => { state := st, result := e, progressLog := [100] }
  | true, none =>
    { state := { cache := alistInsert st.cache (embeddingCachePath md5 docs)
                   (encode docs),
                 modelInvocations := st.modelInvocations + 1 },
      result := encode docs, progressLog := [10, 30, 90, 100] }
  | false, _ =>
    { state := { cache := st.cache, modelInvocations := st.modelInvocations + 1 },
      result := encode docs, progressLog := [10, 30, 90, 100] }

/-! ## Topic count reported by train (topic_analyzer.py, lines 362-373) -/

/-- The topic count surfaced to the user by TopicAnalyzer.train:
len(set(topics)) - 1, where topics is the assignment list returned by
fit_transform. -/
def reportedTopicCount (topics : List Int) : Int :=
  (topics.dedup.length : Int) - 1

/-- The number of distinct topic labels with the outlier label -1 excluded
(the quantity the specification says is reported). -/
def distinctNonOutlierCount (topics : List Int) : Int :=
  ((topics.dedup.filter (fun t => t ≠ -1)).length : Int)

/-- The observable outcome of a successful train run: the stored assignment
list and the topic count reported in the final progress message
"Training complete: {n} topics found". -/
structure TrainOutcome where
  topics : List Int
  reportedCount : Int
deriving DecidableEq

/-- TopicAnalyzer.train, restricted to its observable reporting behaviour:
fit_transform's assignment list is stored and the reported count is
len(set(topics)) - 1. -/
def TopicAnalyzer.train (fitTopics : List Int) : TrainOutcome :=
  { topics := fitTopics, reportedCount := reportedTopicCount fitTopics }

/-! ## load_model (topic_analyzer.py, lines 463-498) -/

/-- A saved-model directory: the mandatory "model" artifact (None models a
missing or unloadable file, on which BERTopic.load raises) and the three
optional artifacts guarded by exists() in the source. -/
structure SavedModelDir (P M : Type) where
  modelArtifact : Option P
  paramsArtifact : Option (List (String × ParamValue))
  topicsArtifact : Option (List Int)
  embeddingsArtifact : Option M

/-- The four instance fields load_model touches. -/
structure AnalyzerState (P M : Type) where
  model : Option P := none
  params : Option TopicModelParams := none
  topics : Option (List Int) := none
  embeddings : Option M := none

/-- A freshly constructed analyzer: all fields unset. -/
def freshAnalyzer (P M : Type) : AnalyzerState P M := {}

/-- TopicAnalyzer.load_model: loading the core pipeline artifact comes first
and a missing or unloadable file aborts the whole load with an error; each
optional artifact is loaded only when present, otherwise the corresponding
field is left as it was. -/
def TopicAnalyzer.loadModel {P M : Type} (st : AnalyzerState P M)
    (dir : SavedModelDir P M) : Except String (AnalyzerState P M) :=
  match dir.modelArtifact with
  | none => Except.error "Failed to load model"
  | some m =>
    let st1 := { st with model := some m }
    let st2 := match dir.paramsArtifact with
      | some d => { st1 with params := some (TopicModelParams.fromDict d) }
      | none => st1
    let st3 := match dir.topicsArtifact with
      | some t => { st2 with topics := some t }
      | none => st2
    let st4 := match dir.embeddingsArtifact with
      | some e => { st3 with embeddings := some e }
      | none => st3
    Except.ok st4

/-! ## Text processor (app/core/processor.py)

The six passes of TextProcessor.clean_text are modelled at the character
level with the semantics of the compiled patterns:

* url_pattern, email_pattern: re.sub scans left to right, replaces each
  leftmost match (greedy) with a single space and resumes after it;
* number_pattern (one or more digits), whitespace_pattern (one or more
  whitespace characters): each maximal run is replaced by one space;
* punctuation_pattern (anything neither word nor whitespace): a per-character
  substitution.

Python's re classes are Unicode-aware; the ASCII range is modelled exactly
and characters above 127 are treated as word characters (true for the CJK
text this pipeline processes), non-digits and non-whitespace, and are left
unchanged by lowercasing. -/

/-- Python whitespace class (ASCII part): space, tab, newline, vertical tab,
form feed, carriage return. -/
def pyIsSpaceChar (c : Char) : Bool :=
  c.toNat = 32 || c.toNat = 9 || c.toNat = 10 || c.toNat = 11 ||
  c.toNat = 12 || c.toNat = 13

/-- Python digit class (ASCII part): 0-9. -/
def pyIsDigitChar (c : Char) : Bool :=
  48 ≤ c.toNat && c.toNat ≤ 57

/-- Python word-character class: letters, digits, underscore (plus the
above-ASCII approximation). -/
def pyIsWordChar (c : Char) : Bool :=
  (65 ≤ c.toNat && c.toNat ≤ 90) || (97 ≤ c.toNat && c.toNat ≤ 122) ||
  pyIsDigitChar c || c.toNat = 95 || 128 ≤ c.toNat

/-- The punctuation pattern of the source is the character class
r'[^\w\s]': anything that is neither a word character nor whitespace. -/
def pyIsPunctChar (c : Char) : Bool :=
  !pyIsWordChar c && !pyIsSpaceChar c

/-- str.lower restricted to one character: A-Z maps to a-z. -/
def pyLowerChar (c : Char) : Char :=
  if h : 65 ≤ c.toNat ∧ c.toNat ≤ 90 then
    Char.ofNatAux (c.toNat + 32) (Or.inl (by omega))
  else c

/-- The characters the body of the URL pattern accepts:
(?:[a-zA-Z]|[0-9]|[$-_@.&+]|[!*\\(\\),]|(?:%[0-9a-fA-F][0-9a-fA-F]))+.
In a character class $-_ is the code range 0x24..0x5f, which already contains
@ . & + as well as \\ ( ) * and comma; the remaining new member of the second
class is the exclamation mark, and the percent-escape alternative is subsumed
because percent and the hexadecimal digits are single accepted characters. -/
def isUrlBodyChar (c : Char) : Bool :=
  (65 ≤ c.toNat && c.toNat ≤ 90) || (97 ≤ c.toNat && c.toNat ≤ 122) ||
  (48 ≤ c.toNat && c.toNat ≤ 57) || (36 ≤ c.toNat && c.toNat ≤ 95) ||
  c.toNat = 33

/-- The character class [\w\.-] used by both sides of the email pattern. -/
def isEmailAChar (c : Char) : Bool :=
  pyIsWordChar c || c = '.' || c = '-'

/-- Match of the URL pattern http[s]?://(body)+ anchored at the head of the
list; returns the length of the (greedy) match.  The optional s is tried
first and given back when :// does not follow, exactly as the backtracking
engine does. -/
def urlBodyLen (r : List Char) : Option Nat :=
  if (r.takeWhile isUrlBodyChar).length = 0 then none
  else some (r.takeWhile isUrlBodyChar).length

def matchUrlAt : List Char → Option Nat
  | 'h' :: 't' :: 't' :: 'p' :: 's' :: ':' :: '/' :: '/' :: r =>
    (urlBodyLen r).map (fun n => 8 + n)
  | 'h' :: 't' :: 't' :: 'p' :: ':' :: '/' :: '/' :: r =>
    (urlBodyLen r).map (fun n => 7 + n)
  | _ => none

/-- Backtracking search for the dot of the email pattern inside R, the
maximal [\w\.-] run after the @: the second [\w\.-]+ is greedy, so the
engine looks for the largest position k >= 1 with R[k] = '.' followed by at
least one word character; the fuel argument is the largest candidate
position plus one.  Returns (k, length of the greedy \w+ run after the
dot). -/
def emailFindDot (R : List Char) : Nat → Option (Nat × Nat)
  | 0 => none
  | k + 1 =>
    if R.get? (k + 1) = some '.' ∧
        0 < ((R.drop (k + 2)).takeWhile pyIsWordChar).length then
      some (k + 1, ((R.drop (k + 2)).takeWhile pyIsWordChar).length)
    else emailFindDot R k

/-- Match of the email pattern [\w\.-]+@[\w\.-]+\.\w+ anchored at the head
of the list; returns the length of the match chosen by the greedy
backtracking engine.  The first [\w\.-]+ never backtracks because @ is not
in the class; the \w+ run never extends past R because word characters are
[\w\.-] characters. -/
def matchEmailAt (l : List Char) : Option Nat :=
  if (l.takeWhile isEmailAChar).length = 0 then none
  else
    match l.drop (l.takeWhile isEmailAChar).length with
    | '@' :: rest =>
      match emailFindDot (rest.takeWhile isEmailAChar)
          (rest.takeWhile isEmailAChar).length with
      | some (k, w) => some ((l.takeWhile isEmailAChar).length + 1 + k + 1 + w)
      | none => none
    | _ => none

/-- Recursion core of re.sub with replacement by one space: scan left to
right, at each position try the anchored matcher; on a match emit one space
and resume after the matched span, otherwise keep the character. The fuel
argument bounds the number of steps and makes the recursion structural; it
is always instantiated with the length of the list, which suffices because
every step consumes at least one character. -/
def subScanGo (M : List Char → Option Nat) : Nat → List Char → List Char
  | 0, l => l
  | _ + 1, [] => []
  | fuel + 1, c :: cs =>
    match M (c :: cs) with
    | some n => ' ' :: subScanGo M fuel (cs.drop (n - 1))
    | none => c :: subScanGo M fuel cs

/-- re.sub with replacement by one space. -/
def subScan (M : List Char → Option Nat) (l : List Char) : List Char :=
  subScanGo M l.length l

/-- Whether the pattern recognised by the anchored matcher M matches
anywhere in the list. -/
def hasMatch (M : List Char → Option Nat) : List Char → Bool
  | [] => false
  | c :: cs => (M (c :: cs)).isSome || hasMatch M cs

/-- Substitution for a single-character class pattern (the punctuation
pattern): every matching character becomes one space. -/
def charSub (p : Char → Bool) (l : List Char) : List Char :=
  l.map fun c => if p c then ' ' else c

/-- Recursion core of the substitution for a pattern of the shape (class)+
(the number and whitespace patterns): every maximal run of matching
characters becomes one space. Fuel as in subScanGo. -/
def runSubGo (p : Char → Bool) : Nat → List Char → List Char
  | 0, l => l
  | _ + 1, [] => []
  | fuel + 1, c :: cs =>
    if p c then ' ' :: runSubGo p fuel (cs.dropWhile p)
    else c :: runSubGo p fuel cs

/-- Substitution for a pattern of the shape (class)+: every maximal run of
matching characters becomes one space. -/
def runSub (p : Char → Bool) (l : List Char) : List Char := runSubGo p l.length l

/-- str.strip, left half: drop leading whitespace. -/
def stripLeft (l : List Char) : List Char := l.dropWhile pyIsSpaceChar

/-- str.strip, right half: drop trailing whitespace. -/
def stripRight (l : List Char) : List Char :=
  (l.reverse.dropWhile pyIsSpaceChar).reverse

/-- str.strip: drop leading and trailing whitespace. -/
def pyStripChars (l : List Char) : List Char := stripRight (stripLeft l)

/-- str.strip on strings. -/
def pyStrip (s : String) : String := String.mk (pyStripChars s.data)

/-- The last clean_text pass: whitespace_pattern.sub(' ', text).strip(). -/
def wsNormalize (l : List Char) : List Char :=
  pyStripChars (runSub pyIsSpaceChar l)

/-- The keyword options of TextProcessor.clean_text, with their source
defaults. -/
structure CleanOptions where
  remove_urls : Bool := true
  remove_emails : Bool := true
  remove_punctuation : Bool := true
  remove_numbers : Bool := false
  lowercase : Bool := false
  strip_whitespace : Bool := true
deriving DecidableEq

/-- if remove_urls: text = url_pattern.sub(' ', text). -/
def urlPass (b : Bool) (l : List Char) : List Char :=
  if b then subScan matchUrlAt l else l

/-- if remove_emails: text = email_pattern.sub(' ', text). -/
def emailPass (b : Bool) (l : List Char) : List Char :=
  if b then subScan matchEmailAt l else l

/-- if remove_numbers: text = number_pattern.sub(' ', text). -/
def numberPass (b : Bool) (l : List Char) : List Char :=
  if b then runSub pyIsDigitChar l else l

/-- if remove_punctuation: text = punctuation_pattern.sub(' ', text). -/
def punctPass (b : Bool) (l : List Char) : List Char :=
  if b then charSub pyIsPunctChar l else l

/-- if lowercase: text = text.lower(). -/
def lowerPass (b : Bool) (l : List Char) : List Char :=
  if b then l.map pyLowerChar else l

/-- if strip_whitespace: text = whitespace_pattern.sub(' ', text).strip(). -/
def wsPass (b : Bool) (l : List Char) : List Char :=
  if b then wsNormalize l else l

/-- The six substitution passes of clean_text in source order: URLs, emails,
numbers, punctuation, lowercase, whitespace normalisation. -/
def cleanPasses (opts : CleanOptions) (l : List Char) : List Char :=
  wsPass opts.strip_whitespace (lowerPass opts.lowercase
    (punctPass opts.remove_punctuation (numberPass opts.remove_numbers
      (emailPass opts.remove_emails (urlPass opts.remove_urls l)))))

/-- TextProcessor.clean_text: empty (or non-string) input yields the empty
string, otherwise the six passes run in order. -/
def cleanText (opts : CleanOptions) (l : List Char) : List Char :=
  if l.isEmpty then [] else cleanPasses opts l

/-- TextProcessor.clean_text on strings. -/
def cleanTextS (opts : CleanOptions) (s : String) : String :=
  String.mk (cleanText opts s.data)

/-- The hypothesis of the idempotence claim: the input is free of URLs,
emails and punctuation with respect to the active options, i.e. for each
active removal option the corresponding pattern has no match in the input. -/
def freeOfPerOptions (opts : CleanOptions) (l : List Char) : Bool :=
  (!opts.remove_urls || !hasMatch matchUrlAt l) &&
  (!opts.remove_emails || !hasMatch matchEmailAt l) &&
  (!opts.remove_punctuation || l.all fun c => !pyIsPunctChar c)

/-- TextProcessor.load_stopwords: the file is read completely and the
stopword set is replaced by the set of non-empty stripped lines; None models
a file that cannot be opened or read to completion, in which case the
exception handler only logs and the previous set is untouched.  The Python
set is modelled as a duplicate-free list. -/
def TextProcessor.loadStopwords (current : List String)
    (file : Option (List String)) : List String :=
  match file with
  | none => current
  | some lines => ((lines.map pyStrip).filter (fun w => w ≠ "")).dedup

/-! ### Predicates used to reason about the clean_text passes -/

/-- The strings the URL pattern can match: the literal scheme followed by a
non-empty run of body characters. -/
def UrlShaped (u : List Char) : Prop :=
  ∃ b, (u = 'h' :: 't' :: 't' :: 'p' :: ':' :: '/' :: '/' :: b ∨
        u = 'h' :: 't' :: 't' :: 'p' :: 's' :: ':' :: '/' :: '/' :: b) ∧
    b ≠ [] ∧ ∀ c ∈ b, isUrlBodyChar c = true

/-- The strings the email pattern can match: a non-empty [\w\.-] run, an @,
a non-empty [\w\.-] run, a dot, and a non-empty word run. -/
def EmailShaped (u : List Char) : Prop :=
  ∃ a b w, u = a ++ '@' :: (b ++ '.' :: w) ∧
    a ≠ [] ∧ (∀ c ∈ a, isEmailAChar c = true) ∧
    b ≠ [] ∧ (∀ c ∈ b, isEmailAChar c = true) ∧
    w ≠ [] ∧ (∀ c ∈ w, pyIsWordChar c = true)

/-- Whitespace-collapsed form: every whitespace character is a plain space
and is followed by a non-whitespace character or ends the list. -/
def nmMid : List Char → Bool
  | [] => true
  | [c] => !pyIsSpaceChar c || c = ' '
  | c :: d :: cs =>
    (!pyIsSpaceChar c || (c = ' ' && !pyIsSpaceChar d)) && nmMid (d :: cs)

/-! ## Helper lemmas -/

theorem lookup_map_replace {β : Type} (l : List (String × β)) (k : String) (v : β)
    (h : (List.lookup k l).isSome) :
    List.lookup k (l.map fun p => if p.1 = k then (k, v) else p) = some v := by
  induction l with
  | nil => simp at h
  | cons p l ih =>
    obtain ⟨a, b⟩ := p
    by_cases hk : a = k
    · subst hk
      simp [List.lookup_cons]
    · have hne : (k == a) = false := beq_false_of_ne (Ne.symm hk)
      rw [List.lookup_cons, hne] at h
      simp only [List.map_cons, if_neg hk]
      rw [List.lookup_cons, hne]
      exact ih h

theorem lookup_append_single {β : Type} (l : List (String × β)) (k : String) (v : β)
    (h : List.lookup k l = none) :
    List.lookup k (l ++ [(k, v)]) = some v := by
  induction l with
  | nil => simp [List.lookup_cons]
  | cons p l ih =>
    obtain ⟨a, b⟩ := p
    rw [List.cons_append, List.lookup_cons]
    rw [List.lookup_cons] at h
    cases hba : (k == a) with
    | true => rw [hba] at h; simp at h
    | false => rw [hba] at h; exact ih h

theorem alistInsert_lookup {β : Type} (l : List (String × β)) (k : String) (v : β) :
    List.lookup k (alistInsert l k v) = some v := by
  unfold alistInsert
  split
  · exact lookup_map_replace l k v (by assumption)
  · rename_i h
    exact lookup_append_single l k v (by
      cases hl : List.lookup k l
      · rfl
      · rw [hl] at h; simp at h)

theorem lookup_filter_ne {β : Type} (l : List (String × β)) (k : String) :
    List.lookup k (l.filter fun p => p.1 ≠ k) = none := by
  induction l with
  | nil => simp
  | cons p l ih =>
    obtain ⟨a, b⟩ := p
    by_cases hk : a = k
    · simpa [List.filter_cons, hk] using ih
    · have hne : (k == a) = false := beq_false_of_ne (Ne.symm hk)
      simp only [List.filter_cons]
      rw [if_pos (by simpa using hk)]
      rw [List.lookup_cons, hne]
      exact ih

/-! ## Worker lemmas and claims C6 and C10 -/

theorem finishedResults_append (w : WorkerState ρ) (s : List (WorkerSignal ρ)) :
    finishedResults { w with signals := w.signals ++ s } =
      finishedResults w ++ s.filterMap (fun x =>
        match x with
        | WorkerSignal.finishedSig r => some r
        | _ => none) := by
  simp [finishedResults, List.filterMap_append]

theorem workerStep_cancelled {ρ : Type} (w : WorkerState ρ) (op : WorkerOp ρ)
    (h : w.cancelled = true) :
    (workerStep w op).cancelled = true ∧
    finishedResults (workerStep w op) = finishedResults w ∧
    ∃ t, (workerStep w op).effects = w.effects ++ t := by
  cases op with
  | cancelOp =>
    refine ⟨rfl, ?_, [], by simp [workerStep, BaseWorker.cancel]⟩
    simp [workerStep, BaseWorker.cancel, finishedResults, List.filterMap_append]
  | progressOp v msg =>
    cases msg with
    | none =>
      refine ⟨h, ?_, [], by simp [workerStep, BaseWorker.emitProgress]⟩
      simp [workerStep, BaseWorker.emitProgress, finishedResults, List.filterMap_append]
    | some m =>
      refine ⟨h, ?_, [], by simp [workerStep, BaseWorker.emitProgress, BaseWorker.emitStatus]⟩
      simp [workerStep, BaseWorker.emitProgress, BaseWorker.emitStatus, finishedResults,
        List.filterMap_append]
  | statusOp m =>
    refine ⟨h, ?_, [], by simp [workerStep, BaseWorker.emitStatus]⟩
    simp [workerStep, BaseWorker.emitStatus, finishedResults, List.filterMap_append]
  | errorOp e =>
    refine ⟨h, ?_, [], by simp [workerStep, BaseWorker.emitError]⟩
    simp [workerStep, BaseWorker.emitError, finishedResults, List.filterMap_append]
  | finishOp r =>
    have hw : workerStep w (WorkerOp.finishOp r) = w := by
      simp [workerStep, BaseWorker.emitFinished, h]
    rw [hw]
    exact ⟨h, rfl, ⟨[], by simp⟩⟩
  | effectOp s =>
    exact ⟨h, rfl, ⟨[s], rfl⟩⟩

theorem workerRun_cancelled_inv {ρ : Type} (ops : List (WorkerOp ρ)) (w0 : WorkerState ρ)
    (h : w0.cancelled = true) :
    (workerRun w0 ops).cancelled = true ∧
    finishedResults (workerRun w0 ops) = finishedResults w0 ∧
    ∃ t, (workerRun w0 ops).effects = w0.effects ++ t := by
  induction ops generalizing w0 with
  | nil => exact ⟨h, rfl, ⟨[], by simp [workerRun]⟩⟩
  | cons op ops ih =>
    have hstep := workerStep_cancelled w0 op h
    have hrun := ih (workerStep w0 op) hstep.1
    have hfold : workerRun w0 (op :: ops) = workerRun (workerStep w0 op) ops := rfl
    rw [hfold]
    refine ⟨hrun.1, hrun.2.1.trans hstep.2.1, ?_⟩
    obtain ⟨t1, ht1⟩ := hstep.2.2
    obtain ⟨t2, ht2⟩ := hrun.2.2
    exact ⟨t1 ++ t2, by rw [ht2, ht1, List.append_assoc]⟩

/-- C6: once cancel() has been called, no subsequent worker activity — in
particular emit_finished, for any result value, even when the underlying
operation ran to completion — ever delivers the finished signal: the list of
finished-signal results never grows past what was delivered before the
cancellation; and side effects already committed are not rolled back (the
committed-effect list only ever extends).  Nothing in the worker resets the
cancellation flag. -/
theorem worker_cancel_suppresses_finished {ρ : Type} (w : WorkerState ρ)
    (ops : List (WorkerOp ρ)) :
    finishedResults (workerRun (BaseWorker.cancel w) ops) = finishedResults w ∧
    (workerRun (BaseWorker.cancel w) ops).cancelled = true ∧
    ∃ t, (workerRun (BaseWorker.cancel w) ops).effects = w.effects ++ t := by
  have hc : (BaseWorker.cancel w).cancelled = true := rfl
  have h := workerRun_cancelled_inv ops (BaseWorker.cancel w) hc
  have hfin : finishedResults (BaseWorker.cancel w) = finishedResults w := by
    simp [BaseWorker.cancel, finishedResults, List.filterMap_append]
  have heff : (BaseWorker.cancel w).effects = w.effects := rfl
  exact ⟨h.2.1.trans hfin, h.1, by rw [← heff]; exact h.2.2⟩

theorem progressValues_signals (w : WorkerState ρ) :
    progressValues w = w.signals.filterMap (fun x =>
      match x with
      | WorkerSignal.progressSig v => some v
      | _ => none) := rfl

theorem workerStep_progress {ρ : Type} (w : WorkerState ρ) (op : WorkerOp ρ)
    (v : Int) (hv : v ∈ progressValues (workerStep w op)) :
    v ∈ progressValues w ∨ (0 ≤ v ∧ v ≤ 100) := by
  have hclamp : ∀ x : Int, 0 ≤ max 0 (min 100 x) ∧ max 0 (min 100 x) ≤ 100 :=
    fun x => ⟨le_max_left 0 _, max_le (by norm_num) (min_le_left 100 x)⟩
  cases op with
  | cancelOp =>
    rw [progressValues_signals, show (workerStep w WorkerOp.cancelOp).signals =
      w.signals ++ [WorkerSignal.statusSig "Cancelling..."] from rfl,
      List.filterMap_append] at hv
    rcases List.mem_append.mp hv with hv | hv
    · exact Or.inl hv
    · simp at hv
  | progressOp x msg =>
    cases msg with
    | none =>
      rw [progressValues_signals,
        show (workerStep w (WorkerOp.progressOp x none)).signals =
          w.signals ++ [WorkerSignal.progressSig (max 0 (min 100 x))] from rfl,
        List.filterMap_append] at hv
      rcases List.mem_append.mp hv with hv | hv
      · exact Or.inl hv
      · simp at hv
        subst hv
        exact Or.inr (hclamp x)
    | some m =>
      rw [progressValues_signals,
        show (workerStep w (WorkerOp.progressOp x (some m))).signals =
          (w.signals ++ [WorkerSignal.progressSig (max 0 (min 100 x))]) ++
            [WorkerSignal.statusSig m] from rfl,
        List.filterMap_append, List.filterMap_append] at hv
      rcases List.mem_append.mp hv with hv | hv
      · rcases List.mem_append.mp hv with hv | hv
        · exact Or.inl hv
        · simp at hv
          subst hv
          exact Or.inr (hclamp x)
      · simp at hv
  | statusOp m =>
    rw [progressValues_signals, show (workerStep w (WorkerOp.statusOp m)).signals =
      w.signals ++ [WorkerSignal.statusSig m] from rfl,
      List.filterMap_append] at hv
    rcases List.mem_append.mp hv with hv | hv
    · exact Or.inl hv
    · simp at hv
  | errorOp e =>
    rw [progressValues_signals, show (workerStep w (WorkerOp.errorOp e)).signals =
      w.signals ++ [WorkerSignal.errorSig e] from rfl,
      List.filterMap_append] at hv
    rcases List.mem_append.mp hv with hv | hv
    · exact Or.inl hv
    · simp at hv
  | finishOp r =>
    by_cases h : w.cancelled = true
    · rw [show workerStep w (WorkerOp.finishOp r) = w by
        simp [workerStep, BaseWorker.emitFinished, h]] at hv
      exact Or.inl hv
    · rw [progressValues_signals, show (workerStep w (WorkerOp.finishOp r)).signals =
        w.signals ++ [WorkerSignal.finishedSig r] by
          simp [workerStep, BaseWorker.emitFinished, h],
        List.filterMap_append] at hv
      rcases List.mem_append.mp hv with hv | hv
      · exact Or.inl hv
      · simp at hv
  | effectOp s =>
    exact Or.inl hv

/-- C10: emit_progress clamps its argument with max(0, min(100, value)), so
the emitted progress value is exactly that clamp; and along any worker
execution from a fresh worker every value ever delivered through the
progress signal lies in 0..100. -/
theorem emitProgress_clamped :
    (∀ (w : WorkerState Nat) (value : Int) (msg : Option String),
      progressValues (BaseWorker.emitProgress w value msg) =
        progressValues w ++ [max 0 (min 100 value)]) ∧
    (∀ (ops : List (WorkerOp Nat)) (v : Int),
      v ∈ progressValues (workerRun (initialWorker Nat) ops) → 0 ≤ v ∧ v ≤ 100) := by
  constructor
  · intro w value msg
    cases msg with
    | none =>
      simp [BaseWorker.emitProgress, progressValues, List.filterMap_append]
    | some m =>
      simp [BaseWorker.emitProgress, BaseWorker.emitStatus, progressValues,
        List.filterMap_append]
  · intro ops
    suffices h : ∀ (w0 : WorkerState Nat),
        (∀ v, v ∈ progressValues w0 → 0 ≤ v ∧ v ≤ 100) →
        ∀ v, v ∈ progressValues (workerRun w0 ops) → 0 ≤ v ∧ v ≤ 100 by
      apply h
      intro v hv
      simp [initialWorker, progressValues] at hv
    induction ops with
    | nil => exact fun w0 h0 => h0
    | cons op ops ih =>
      intro w0 h0 v hv
      have hfold : workerRun w0 (op :: ops) = workerRun (workerStep w0 op) ops := rfl
      rw [hfold] at hv
      refine ih (workerStep w0 op) ?_ v hv
      intro u hu
      rcases workerStep_progress w0 op u hu with h | h
      · exact h0 u h
      · exact h

/-- C10 witness: a progress emission of 150 from a fresh worker is delivered
as 100, which the theorem places in 0..100. -/
theorem emitProgress_clamped_witness : (0:Int) ≤ 100 ∧ (100:Int) ≤ 100 :=
  emitProgress_clamped.2 [WorkerOp.progressOp 150 none] 100 (by decide)

/-! ## Model manager claims C3 and C4 -/

/-- C3: when a download_model call without force succeeded, a second call
without force returns the same path and the exact state of the first call —
in particular the network-call count is unchanged, so no hub download is
performed — and reports a single 100% progress callback immediately. -/
theorem downloadModel_idempotent (cacheDir : String) (env : HubEnv)
    (st : MMState) (name : String) (st1 : MMState) (p : String)
    (log1 : List (Int × String))
    (h : ModelManager.downloadModel cacheDir env st name false = (st1, Except.ok p, log1)) :
    ModelManager.downloadModel cacheDir env st1 name false =
      (st1, Except.ok p, [(100, "Model already cached")]) := by
  have hmain : ∀ st2 : MMState, ∀ q, ModelManager.isModelCached st2 name = true →
      ModelManager.getModelPath st2 name = some q →
      ModelManager.downloadModel cacheDir env st2 name false =
        (st2, Except.ok q, [(100, "Model already cached")]) := by
    intro st2 q hc hq
    unfold ModelManager.downloadModel
    rw [if_pos (show (!false && ModelManager.isModelCached st2 name) = true by
      rw [hc]; rfl)]
    rw [hq]
  unfold ModelManager.downloadModel at h
  by_cases hc : ModelManager.isModelCached st name = true
  · rw [if_pos (show (!false && ModelManager.isModelCached st name) = true by
      rw [hc]; rfl)] at h
    rcases hlook : ModelManager.getModelPath st name with _ | q
    · exfalso
      unfold ModelManager.getModelPath at hlook
      rw [if_pos hc] at hlook
      unfold ModelManager.isModelCached at hc
      rcases hl2 : List.lookup name st.metadata with _ | m
      · rw [hl2] at hc
        simp at hc
      · rw [hl2] at hlook
        simp at hlook
    · rw [hlook] at h
      have h1 : st = st1 := congrArg (fun x => x.1) h
      have h2 : Except.ok (ε := String) q = Except.ok p := congrArg (fun x => x.2.1) h
      have hqp : q = p := by simpa using h2
      subst h1
      subst hqp
      exact hmain st q hc hlook
  · rw [if_neg (show ¬(!false && ModelManager.isModelCached st name) = true by
      simp [hc])] at h
    simp only at h
    by_cases ha : env.available name = true
    · rw [if_pos (show (env.available name) = true from ha)] at h
      have h1 : _ = st1 := congrArg (fun x => x.1) h
      have h2 : Except.ok (ε := String)
          (cacheDir ++ "/" ++ replaceSlashes name) = Except.ok p :=
        congrArg (fun x => x.2.1) h
      have hp : cacheDir ++ "/" ++ replaceSlashes name = p := by simpa using h2
      have hmeta : List.lookup name st1.metadata = some
          { model_name := name
            model_path := cacheDir ++ "/" ++ replaceSlashes name
            size_mb := env.dirSize (cacheDir ++ "/" ++ replaceSlashes name)
            download_date := some env.now
            max_seq_length := (env.probeMaxSeq
              (cacheDir ++ "/" ++ replaceSlashes name)).getD 512 } := by
        rw [← h1]
        exact alistInsert_lookup _ name _
      have hfs : st1.fsDirs.contains (cacheDir ++ "/" ++ replaceSlashes name) = true := by
        rw [← h1]
        simp only
        split
        · rename_i hmem
          exact hmem
        · simp
      have hcached1 : ModelManager.isModelCached st1 name = true := by
        unfold ModelManager.isModelCached
        rw [hmeta]
        exact hfs
      have hgot : ModelManager.getModelPath st1 name = some p := by
        unfold ModelManager.getModelPath
        rw [if_pos hcached1, hmeta]
        simp [hp]
      exact hmain st1 p hcached1 hgot
    · rw [if_neg (show ¬(env.available name) = true by simp [ha])] at h
      have h2 : Except.error (α := String)
          ("Model " ++ name ++ " not found on HuggingFace Hub") = Except.ok p :=
        congrArg (fun x => x.2.1) h
      simp at h2

/-- C3 witness: a concrete fresh download of "org/model" succeeds, and the
theorem applied to it yields the short-circuiting second call. -/
theorem downloadModel_idempotent_witness :
    ModelManager.downloadModel "cache"
      { available := fun _ => true, probeMaxSeq := fun _ => none,
        dirSize := fun _ => 7, now := "2024-01-01" }
      { metadata := [("org/model",
          { model_name := "org/model", model_path := "cache/org--model",
            size_mb := 7, download_date := some "2024-01-01" })],
        fsDirs := ["cache/org--model"], networkCalls := 1 }
      "org/model" false =
      ({ metadata := [("org/model",
          { model_name := "org/model", model_path := "cache/org--model",
            size_mb := 7, download_date := some "2024-01-01" })],
         fsDirs := ["cache/org--model"], networkCalls := 1 },
       Except.ok "cache/org--model", [(100, "Model already cached")]) :=
  downloadModel_idempotent "cache"
    { available := fun _ => true, probeMaxSeq := fun _ => none,
      dirSize := fun _ => 7, now := "2024-01-01" }
    { metadata := [], fsDirs := [], networkCalls := 0 } "org/model"
    { metadata := [("org/model",
        { model_name := "org/model", model_path := "cache/org--model",
          size_mb := 7, download_date := some "2024-01-01" })],
      fsDirs := ["cache/org--model"], networkCalls := 1 }
    "cache/org--model" [(5, "Downloading org/model..."),
      (80, "Download complete, validating..."), (100, "Download complete")]
    (by rfl)

/-- C4: delete_model on an identifier with no metadata record returns false
and leaves the state untouched (and, being total, raises nothing); on a
cached identifier it returns true, removes the model directory and the
metadata record, and is_model_cached is false afterwards. -/
theorem deleteModel_spec (st : MMState) (name : String) :
    (List.lookup name st.metadata = none →
      ModelManager.deleteModel st name = (st, false)) ∧
    (ModelManager.isModelCached st name = true →
      (ModelManager.deleteModel st name).2 = true ∧
      List.lookup name (ModelManager.deleteModel st name).1.metadata = none ∧
      (∀ m, List.lookup name st.metadata = some m →
        m.model_path ∉ (ModelManager.deleteModel st name).1.fsDirs) ∧
      ModelManager.isModelCached (ModelManager.deleteModel st name).1 name = false) := by
  constructor
  · intro hnone
    unfold ModelManager.deleteModel
    rw [hnone]
  · intro hc
    unfold ModelManager.isModelCached at hc
    rcases hlook : List.lookup name st.metadata with _ | m
    · rw [hlook] at hc
      simp at hc
    · have hdel : ModelManager.deleteModel st name =
          ({ st with fsDirs := st.fsDirs.filter (fun d => d ≠ m.model_path),
                     metadata := st.metadata.filter (fun p => p.1 ≠ name) }, true) := by
        unfold ModelManager.deleteModel
        rw [hlook]
      refine ⟨by rw [hdel], ?_, ?_, ?_⟩
      · rw [hdel]
        exact lookup_filter_ne st.metadata name
      · intro m' hm'
        obtain rfl : m = m' := Option.some.inj hm'
        rw [hdel]
        intro hmem
        exact absurd (List.mem_filter.mp hmem).2 (by simp)
      · have h2 : List.lookup name (ModelManager.deleteModel st name).1.metadata = none := by
          rw [hdel]
          exact lookup_filter_ne st.metadata name
        unfold ModelManager.isModelCached
        rw [h2]

/-- C4 witness: the theorem applied to an empty manager (no metadata) and to
a manager with one cached model. -/
theorem deleteModel_spec_witness :
    ModelManager.deleteModel { metadata := [], fsDirs := [], networkCalls := 0 } "m"
      = ({ metadata := [], fsDirs := [], networkCalls := 0 }, false) ∧
    (ModelManager.deleteModel
        { metadata := [("m", { model_name := "m", model_path := "p" })],
          fsDirs := ["p"], networkCalls := 1 } "m").2 = true := by
  constructor
  · exact (deleteModel_spec _ "m").1 (by decide)
  · exact ((deleteModel_spec
      { metadata := [("m", { model_name := "m", model_path := "p" })],
        fsDirs := ["p"], networkCalls := 1 } "m").2 (by decide)).1

/-! ## Embedding cache claim C1 -/

/-- C1: two document lists whose first 100 entries coincide produce the same
embedding-cache fingerprint and hence the same cache path (for any digest
function); consequently, after generate_embeddings with use_cache has run on
the first list, running it on the second list returns the stored matrix with
a single immediate 100% callback, leaving the state — including the count of
embedding-model invocations — unchanged. -/
theorem generateEmbeddings_cache_hit {M : Type} (md5 : String → String)
    (encode : List String → M) (st : EmbCacheState M) (docs : List String)
    (e : M) (h : List.lookup (embeddingCachePath md5 docs) st.cache = some e) :
    generateEmbeddings md5 encode st docs true =
      { state := st, result := e, progressLog := [100] } := by
  unfold generateEmbeddings
  rw [h]

theorem generateEmbeddings_cache_miss {M : Type} (md5 : String → String)
    (encode : List String → M) (st : EmbCacheState M) (docs : List String)
    (h : List.lookup (embeddingCachePath md5 docs) st.cache = none) :
    generateEmbeddings md5 encode st docs true =
      { state := { cache := alistInsert st.cache (embeddingCachePath md5 docs)
                     (encode docs),
                   modelInvocations := st.modelInvocations + 1 },
        result := encode docs, progressLog := [10, 30, 90, 100] } := by
  unfold generateEmbeddings
  rw [h]

/-- C1: two document lists whose first 100 entries coincide produce the same
embedding-cache fingerprint and hence the same cache path (for any digest
function); consequently, after generate_embeddings with use_cache has run on
the first list, running it on the second list returns the stored matrix with
a single immediate 100% callback, leaving the state — including the count of
embedding-model invocations — unchanged. -/
theorem embeddingCache_prefix_collision {M : Type} (md5 : String → String)
    (encode : List String → M) (st : EmbCacheState M)
    (docs1 docs2 : List String) (h : docs1.take 100 = docs2.take 100) :
    embeddingCachePath md5 docs1 = embeddingCachePath md5 docs2 ∧
    generateEmbeddings md5 encode
        (generateEmbeddings md5 encode st docs1 true).state docs2 true =
      { state := (generateEmbeddings md5 encode st docs1 true).state,
        result := (generateEmbeddings md5 encode st docs1 true).result,
        progressLog := [100] } := by
  have hpath : embeddingCachePath md5 docs1 = embeddingCachePath md5 docs2 := by
    unfold embeddingCachePath embeddingFingerprint
    rw [h]
  refine ⟨hpath, ?_⟩
  have hhit : List.lookup (embeddingCachePath md5 docs2)
      (generateEmbeddings md5 encode st docs1 true).state.cache =
      some (generateEmbeddings md5 encode st docs1 true).result := by
    rw [← hpath]
    rcases hl : List.lookup (embeddingCachePath md5 docs1) st.cache with _ | e
    · rw [generateEmbeddings_cache_miss md5 encode st docs1 hl]
      exact alistInsert_lookup st.cache (embeddingCachePath md5 docs1) (encode docs1)
    · rw [generateEmbeddings_cache_hit md5 encode st docs1 e hl]
      exact hl
  exact generateEmbeddings_cache_hit md5 encode _ docs2 _ hhit

/-- C1 witness: two concrete 101-document lists that agree on the first 100
entries and differ at entry 100. -/
theorem embeddingCache_prefix_collision_witness :
    embeddingCachePath id (List.replicate 100 "d" ++ ["x"]) =
      embeddingCachePath id (List.replicate 100 "d" ++ ["y"]) ∧
    generateEmbeddings id (fun docs => docs.length)
        ((generateEmbeddings id (fun docs => docs.length)
          { cache := [], modelInvocations := 0 }
          (List.replicate 100 "d" ++ ["x"]) true).state)
        (List.replicate 100 "d" ++ ["y"]) true =
      { state := (generateEmbeddings id (fun docs => docs.length)
          { cache := [], modelInvocations := 0 }
          (List.replicate 100 "d" ++ ["x"]) true).state,
        result := (generateEmbeddings id (fun docs => docs.length)
          { cache := [], modelInvocations := 0 }
          (List.replicate 100 "d" ++ ["x"]) true).result,
        progressLog := [100] } :=
  embeddingCache_prefix_collision id (fun docs => docs.length)
    { cache := [], modelInvocations := 0 } _ _ (by
      rw [List.take_left' (by simp), List.take_left' (by simp)])

/-! ## Reported topic count, claim C2 -/

/-- C2 counterexample: on the assignment list [0, 0, 1] — a successful run in
which no document got the outlier label -1 — train reports
len(set(topics)) - 1 = 1, while the number of distinct labels with -1
excluded is 2, so the reported count is not that number. -/
theorem reportedTopicCount_cx :
    (TopicAnalyzer.train [0, 0, 1]).reportedCount = 1 ∧
    distinctNonOutlierCount [0, 0, 1] = 2 ∧
    (TopicAnalyzer.train [0, 0, 1]).reportedCount ≠ distinctNonOutlierCount [0, 0, 1] := by
  refine ⟨?_, ?_, ?_⟩ <;> decide

/-- C2 (amended): train always reports len(set(topics)) - 1; this equals the
number of distinct labels with -1 excluded exactly when -1 occurs among the
labels, and is that number minus one when -1 does not occur. -/
theorem reportedTopicCount_spec (topics : List Int) :
    (TopicAnalyzer.train topics).reportedCount = (topics.dedup.length : Int) - 1 ∧
    ((-1) ∈ topics →
      (TopicAnalyzer.train topics).reportedCount = distinctNonOutlierCount topics) ∧
    ((-1) ∉ topics →
      (TopicAnalyzer.train topics).reportedCount = distinctNonOutlierCount topics - 1) := by
  refine ⟨rfl, ?_, ?_⟩
  · intro hmem
    have hd : (-1) ∈ topics.dedup := List.mem_dedup.mpr hmem
    have hnd : topics.dedup.Nodup := topics.nodup_dedup
    have hcount : topics.dedup.count (-1) = 1 := List.count_eq_one_of_mem hnd hd
    have hsplit : topics.dedup.length =
        (topics.dedup.filter (fun t => t ≠ -1)).length +
        (topics.dedup.filter (fun t => t = -1)).length := by
      rw [← List.countP_eq_length_filter, ← List.countP_eq_length_filter]
      have := List.length_eq_countP_add_countP (p := fun t : Int => t ≠ -1)
        (l := topics.dedup)
      rw [this]
      congr 1
      apply List.countP_congr
      intro a _
      simp
    have hone : (topics.dedup.filter (fun t => t = -1)).length = 1 := by
      rw [← List.countP_eq_length_filter]
      simpa [List.count] using hcount
    show (reportedTopicCount topics) = _
    unfold reportedTopicCount distinctNonOutlierCount
    rw [hsplit, hone]
    push_cast
    ring
  · intro hmem
    have hd : (-1) ∉ topics.dedup := fun hc => hmem (List.mem_dedup.mp hc)
    have hfil : topics.dedup.filter (fun t => t ≠ -1) = topics.dedup := by
      apply List.filter_eq_self.mpr
      intro a ha
      simp only [decide_eq_true_eq]
      intro hrf
      exact hd (hrf ▸ ha)
    show (reportedTopicCount topics) = _
    unfold reportedTopicCount distinctNonOutlierCount
    rw [hfil]

/-- C2 witness: the amended theorem applied to a list containing the outlier
label and to a list without it. -/
theorem reportedTopicCount_spec_witness :
    (TopicAnalyzer.train [-1, 0, 1]).reportedCount = distinctNonOutlierCount [-1, 0, 1] ∧
    (TopicAnalyzer.train [0, 0, 1]).reportedCount = distinctNonOutlierCount [0, 0, 1] - 1 :=
  ⟨(reportedTopicCount_spec [-1, 0, 1]).2.1 (by decide),
   (reportedTopicCount_spec [0, 0, 1]).2.2 (by decide)⟩

/-! ## Parameter dictionary round-trip, claim C9 -/

/-- C9: from_dict(p.to_dict()) reproduces every field of p exactly, for every
TopicModelParams value. -/
theorem paramsRoundTrip (p : TopicModelParams) :
    TopicModelParams.fromDict (TopicModelParams.toDict p) = p := rfl

/-! ## load_model, claim C5 -/

/-- C5: loading from a directory whose mandatory "model" artifact is missing
or unloadable fails with an error; when the model artifact is present the
load succeeds, and each optional artifact (params.json, topics.joblib,
embeddings.joblib) that is absent leaves the corresponding field of a fresh
analyzer unset. -/
theorem loadModel_partial_tolerant (P M : Type) (dir : SavedModelDir P M) :
    (dir.modelArtifact = none →
      TopicAnalyzer.loadModel (freshAnalyzer P M) dir =
        Except.error "Failed to load model") ∧
    (∀ m, dir.modelArtifact = some m →
      ∃ st', TopicAnalyzer.loadModel (freshAnalyzer P M) dir = Except.ok st' ∧
        st'.model = some m ∧
        (dir.paramsArtifact = none → st'.params = none) ∧
        (dir.topicsArtifact = none → st'.topics = none) ∧
        (dir.embeddingsArtifact = none → st'.embeddings = none)) := by
  constructor
  · intro hnone
    unfold TopicAnalyzer.loadModel
    rw [hnone]
  · intro m hm
    unfold TopicAnalyzer.loadModel
    rw [hm]
    rcases dir.paramsArtifact with _ | d <;>
      rcases dir.topicsArtifact with _ | t <;>
        rcases dir.embeddingsArtifact with _ | e <;>
          exact ⟨_, rfl, rfl, by simp [freshAnalyzer], by simp [freshAnalyzer],
            by simp [freshAnalyzer]⟩

/-- C5 witness: the theorem applied to a directory with no artifacts at all
and to a directory holding only the mandatory model artifact. -/
theorem loadModel_partial_tolerant_witness :
    TopicAnalyzer.loadModel (freshAnalyzer Nat Nat)
      { modelArtifact := none, paramsArtifact := none,
        topicsArtifact := none, embeddingsArtifact := none } =
      Except.error "Failed to load model" ∧
    ∃ st', TopicAnalyzer.loadModel (freshAnalyzer Nat Nat)
      { modelArtifact := some 5, paramsArtifact := none,
        topicsArtifact := none, embeddingsArtifact := none } = Except.ok st' ∧
      st'.model = some 5 ∧
      (st'.params = none) ∧ (st'.topics = none) ∧ (st'.embeddings = none) := by
  constructor
  · exact (loadModel_partial_tolerant Nat Nat _).1 rfl
  · obtain ⟨st', h1, h2, h3, h4, h5⟩ :=
      (loadModel_partial_tolerant Nat Nat
        { modelArtifact := some 5, paramsArtifact := none,
          topicsArtifact := none, embeddingsArtifact := none }).2 5 rfl
    exact ⟨st', h1, h2, h3 rfl, h4 rfl, h5 rfl⟩

/-! ## load_stopwords, claim C8 -/

/-- C8: when the stopwords file cannot be opened or read to completion the
previously loaded set is left exactly as it was; on success the set is
replaced wholesale, containing precisely the non-empty stripped lines of the
file. -/
theorem loadStopwords_spec (current : List String) (file : Option (List String)) :
    (file = none → TextProcessor.loadStopwords current file = current) ∧
    (∀ lines, file = some lines → ∀ w,
      w ∈ TextProcessor.loadStopwords current file ↔
        (w ≠ "" ∧ ∃ line ∈ lines, pyStrip line = w)) := by
  constructor
  · intro hnone
    rw [hnone]
    rfl
  · intro lines hl w
    rw [hl]
    unfold TextProcessor.loadStopwords
    rw [List.mem_dedup, List.mem_filter]
    constructor
    · rintro ⟨hmem, hne⟩
      rcases List.mem_map.mp hmem with ⟨line, hline, hstrip⟩
      exact ⟨by simpa using hne, line, hline, hstrip⟩
    · rintro ⟨hne, line, hline, hstrip⟩
      exact ⟨List.mem_map.mpr ⟨line, hline, hstrip⟩, by simpa using hne⟩

/-- C8 witness: the theorem applied to a failed read and to a successful read
of a two-line file with surrounding whitespace and one blank line. -/
theorem loadStopwords_spec_witness :
    TextProcessor.loadStopwords ["old"] none = ["old"] ∧
    ("b" ∈ TextProcessor.loadStopwords ["old"] (some ["  b ", ""]) ↔
      ("b" ≠ "" ∧ ∃ line ∈ ["  b ", ""], pyStrip line = "b")) :=
  ⟨(loadStopwords_spec ["old"] none).1 rfl,
   (loadStopwords_spec ["old"] (some ["  b ", ""])).2 ["  b ", ""] rfl "b"⟩

/-! ## Character-level lemmas for clean_text -/

theorem toNat_ofNatAux (n : Nat) (h : n.isValidChar) :
    (Char.ofNatAux n h).toNat = n := rfl

theorem pyLowerChar_toNat (c : Char) :
    (pyLowerChar c).toNat =
      if 65 ≤ c.toNat ∧ c.toNat ≤ 90 then c.toNat + 32 else c.toNat := by
  unfold pyLowerChar
  split
  · exact toNat_ofNatAux _ _
  · rfl

theorem char_eq_iff_toNat (c d : Char) : c = d ↔ c.toNat = d.toNat := by
  constructor
  · intro h
    rw [h]
  · intro h
    exact Char.ext (UInt32.toNat.inj h)

theorem pyIsSpaceChar_lower (c : Char) :
    pyIsSpaceChar (pyLowerChar c) = pyIsSpaceChar c := by
  unfold pyIsSpaceChar
  rw [Bool.eq_iff_iff]
  simp only [Bool.or_eq_true, decide_eq_true_eq, pyLowerChar_toNat]
  by_cases h : 65 ≤ c.toNat ∧ c.toNat ≤ 90
  · rw [if_pos h]
    omega
  · rw [if_neg h]

theorem pyIsDigitChar_lower (c : Char) :
    pyIsDigitChar (pyLowerChar c) = pyIsDigitChar c := by
  unfold pyIsDigitChar
  rw [Bool.eq_iff_iff]
  simp only [Bool.and_eq_true, decide_eq_true_eq, pyLowerChar_toNat]
  by_cases h : 65 ≤ c.toNat ∧ c.toNat ≤ 90
  · rw [if_pos h]
    omega
  · rw [if_neg h]

theorem pyIsWordChar_lower (c : Char) :
    pyIsWordChar (pyLowerChar c) = pyIsWordChar c := by
  unfold pyIsWordChar pyIsDigitChar
  rw [Bool.eq_iff_iff]
  simp only [Bool.or_eq_true, Bool.and_eq_true, decide_eq_true_eq, pyLowerChar_toNat]
  by_cases h : 65 ≤ c.toNat ∧ c.toNat ≤ 90
  · rw [if_pos h]
    omega
  · rw [if_neg h]

theorem pyIsPunctChar_lower (c : Char) :
    pyIsPunctChar (pyLowerChar c) = pyIsPunctChar c := by
  unfold pyIsPunctChar
  rw [pyIsWordChar_lower, pyIsSpaceChar_lower]

theorem isEmailAChar_lower (c : Char) :
    isEmailAChar (pyLowerChar c) = isEmailAChar c := by
  have hdot : ('.' : Char).toNat = 46 := rfl
  have hdash : ('-' : Char).toNat = 45 := rfl
  unfold isEmailAChar
  rw [pyIsWordChar_lower, Bool.eq_iff_iff]
  simp only [Bool.or_eq_true, decide_eq_true_eq, char_eq_iff_toNat, hdot, hdash,
    pyLowerChar_toNat]
  by_cases h : 65 ≤ c.toNat ∧ c.toNat ≤ 90
  · rw [if_pos h]
    constructor
    · rintro ((hw | h46) | h45)
      · exact Or.inl (Or.inl hw)
      · omega
      · omega
    · rintro ((hw | h46) | h45)
      · exact Or.inl (Or.inl hw)
      · omega
      · omega
  · rw [if_neg h]

theorem pyLowerChar_idem (c : Char) :
    pyLowerChar (pyLowerChar c) = pyLowerChar c := by
  rw [char_eq_iff_toNat, pyLowerChar_toNat (pyLowerChar c), pyLowerChar_toNat c]
  by_cases h : 65 ≤ c.toNat ∧ c.toNat ≤ 90
  · rw [if_pos h, if_neg (by omega)]
  · rw [if_neg h, if_neg h]

theorem pyLowerChar_space : pyLowerChar ' ' = ' ' := rfl

theorem pyLowerChar_eq_dot (c : Char) : (pyLowerChar c = '.') ↔ c = '.' := by
  rw [char_eq_iff_toNat, char_eq_iff_toNat c, show ('.' : Char).toNat = 46 from rfl,
    pyLowerChar_toNat]
  by_cases h : 65 ≤ c.toNat ∧ c.toNat ≤ 90
  · rw [if_pos h]
    omega
  · rw [if_neg h]

theorem pyLowerChar_eq_at (c : Char) : (pyLowerChar c = '@') ↔ c = '@' := by
  rw [char_eq_iff_toNat, char_eq_iff_toNat c, show ('@' : Char).toNat = 64 from rfl,
    pyLowerChar_toNat]
  by_cases h : 65 ≤ c.toNat ∧ c.toNat ≤ 90
  · rw [if_pos h]
    omega
  · rw [if_neg h]

/-! ## Scan and substitution lemmas -/

theorem runSubGo_nil (p : Char → Bool) (f : Nat) : runSubGo p f [] = [] := by
  cases f <;> rfl

theorem runSubGo_congr (p : Char → Bool) :
    ∀ f g l, l.length ≤ f → l.length ≤ g → runSubGo p f l = runSubGo p g l := by
  intro f
  induction f with
  | zero =>
    intro g l hf _
    have hl : l = [] := List.eq_nil_of_length_eq_zero (Nat.le_zero.mp hf)
    subst hl
    rw [runSubGo_nil, runSubGo_nil]
  | succ f ih =>
    intro g l hf hg
    cases l with
    | nil => rw [runSubGo_nil, runSubGo_nil]
    | cons c cs =>
      cases g with
      | zero => simp at hg
      | succ g =>
        rw [runSubGo, runSubGo]
        by_cases hc : p c = true
        · rw [if_pos hc, if_pos hc,
            ih g (cs.dropWhile p)
              (le_trans (List.dropWhile_sublist p).length_le (by simpa using hf))
              (le_trans (List.dropWhile_sublist p).length_le (by simpa using hg))]
        · rw [if_neg hc, if_neg hc, ih g cs (by simpa using hf) (by simpa using hg)]

theorem runSub_nil (p : Char → Bool) : runSub p [] = [] := rfl

theorem runSub_cons (p : Char → Bool) (c : Char) (cs : List Char) :
    runSub p (c :: cs) =
      if p c then ' ' :: runSub p (cs.dropWhile p) else c :: runSub p cs := by
  unfold runSub
  rw [show (c :: cs).length = cs.length + 1 from rfl, runSubGo]
  by_cases hc : p c = true
  · rw [if_pos hc, if_pos hc,
      runSubGo_congr p cs.length (cs.dropWhile p).length (cs.dropWhile p)
        (List.dropWhile_sublist p).length_le le_rfl]
  · rw [if_neg hc, if_neg hc]

theorem runSub_induction {p : Char → Bool} {motive : List Char → Prop}
    (h1 : motive [])
    (h2 : ∀ d cs, p d = true → motive (cs.dropWhile p) → motive (d :: cs))
    (h3 : ∀ d cs, ¬p d = true → motive cs → motive (d :: cs)) :
    ∀ l, motive l := by
  have key : ∀ n l, l.length ≤ n → motive l := by
    intro n
    induction n with
    | zero =>
      intro l h
      rw [List.eq_nil_of_length_eq_zero (Nat.le_zero.mp h)]
      exact h1
    | succ n ih =>
      intro l hlen
      cases l with
      | nil => exact h1
      | cons d cs =>
        by_cases hd : p d = true
        · exact h2 d cs hd (ih _ (le_trans (List.dropWhile_sublist p).length_le
            (by simpa using hlen)))
        · exact h3 d cs hd (ih cs (by simpa using hlen))
  exact fun l => key l.length l le_rfl

theorem subScanGo_nil (M : List Char → Option Nat) (f : Nat) :
    subScanGo M f [] = [] := by
  cases f <;> rfl

theorem subScanGo_congr (M : List Char → Option Nat) :
    ∀ f g l, l.length ≤ f → l.length ≤ g → subScanGo M f l = subScanGo M g l := by
  intro f
  induction f with
  | zero =>
    intro g l hf _
    have hl : l = [] := List.eq_nil_of_length_eq_zero (Nat.le_zero.mp hf)
    subst hl
    rw [subScanGo_nil, subScanGo_nil]
  | succ f ih =>
    intro g l hf hg
    cases l with
    | nil => rw [subScanGo_nil, subScanGo_nil]
    | cons c cs =>
      cases g with
      | zero => simp at hg
      | succ g =>
        rw [subScanGo, subScanGo]
        have hcs : cs.length ≤ f ∧ cs.length ≤ g := ⟨by simpa using hf, by simpa using hg⟩
        cases hm : M (c :: cs) with
        | some n =>
          have hdl : (cs.drop (n - 1)).length ≤ cs.length := by
            rw [List.length_drop]
            omega
          simp only [hm]
          rw [ih g (cs.drop (n - 1)) (le_trans hdl hcs.1) (le_trans hdl hcs.2)]
        | none =>
          simp only [hm]
          rw [ih g cs hcs.1 hcs.2]

theorem subScan_nil (M : List Char → Option Nat) : subScan M [] = [] := rfl

theorem subScan_cons (M : List Char → Option Nat) (c : Char) (cs : List Char) :
    subScan M (c :: cs) =
      match M (c :: cs) with
      | some n => ' ' :: subScan M (cs.drop (n - 1))
      | none => c :: subScan M cs := by
  unfold subScan
  rw [show (c :: cs).length = cs.length + 1 from rfl, subScanGo]
  cases hm : M (c :: cs) with
  | some n =>
    simp only [hm]
    rw [subScanGo_congr M cs.length (cs.drop (n - 1)).length (cs.drop (n - 1))
      (by rw [List.length_drop]; omega) le_rfl]
  | none => simp only [hm]

theorem subScan_of_no_match (M : List Char → Option Nat) (l : List Char)
    (h : hasMatch M l = false) : subScan M l = l := by
  induction l with
  | nil => rw [subScan_nil]
  | cons c cs ih =>
    have h2 : (M (c :: cs)).isSome = false ∧ hasMatch M cs = false := by
      simpa [hasMatch] using h
    cases hm : M (c :: cs) with
    | some n =>
      rw [hm] at h2
      simp at h2
    | none =>
      rw [subScan_cons]
      simp only [hm]
      exact congrArg (c :: ·) (ih h2.2)

theorem hasMatch_of_suffix (M : List Char → Option Nat) {s l : List Char}
    (hs : s <:+ l) (hne : s ≠ []) (h : (M s).isSome = true) :
    hasMatch M l = true := by
  obtain ⟨t, rfl⟩ := hs
  induction t with
  | nil =>
    cases s with
    | nil => exact absurd rfl hne
    | cons a as =>
      simp [hasMatch, h]
  | cons b bs ih =>
    rw [List.cons_append, hasMatch]
    simp [ih]

theorem hasMatch_to_suffix (M : List Char → Option Nat) {l : List Char}
    (h : hasMatch M l = true) :
    ∃ s, s <:+ l ∧ s ≠ [] ∧ (M s).isSome = true := by
  induction l with
  | nil => simp [hasMatch] at h
  | cons c cs ih =>
    rw [hasMatch, Bool.or_eq_true] at h
    rcases h with h | h
    · exact ⟨c :: cs, List.suffix_refl _, List.cons_ne_nil c cs, h⟩
    · obtain ⟨s, hs, hne, hsome⟩ := ih h
      exact ⟨s, hs.trans (List.suffix_cons c cs), hne, hsome⟩

theorem runSub_eq_self {p : Char → Bool} {l : List Char}
    (h : ∀ c ∈ l, p c = false) : runSub p l = l := by
  induction l with
  | nil => rw [runSub_nil]
  | cons c cs ih =>
    have hc : p c = false := h c (List.mem_cons_self c cs)
    rw [runSub_cons, if_neg (by simp [hc])]
    exact congrArg (c :: ·) (ih fun d hd => h d (List.mem_cons_of_mem c hd))

theorem runSub_mem {p : Char → Bool} {l : List Char} {c : Char}
    (h : c ∈ runSub p l) : c = ' ' ∨ (c ∈ l ∧ p c = false) := by
  induction l using runSub_induction (p := p) with
  | h1 => simp [runSub_nil] at h
  | h2 d cs hd ih =>
    rw [runSub_cons, if_pos hd] at h
    rcases List.mem_cons.mp h with h | h
    · exact Or.inl h
    · rcases ih h with h | ⟨h1, h2⟩
      · exact Or.inl h
      · exact Or.inr ⟨List.mem_cons_of_mem d ((List.dropWhile_sublist p).mem h1), h2⟩
  | h3 d cs hd ih =>
    rw [runSub_cons, if_neg (by simp [hd])] at h
    rcases List.mem_cons.mp h with rfl | h
    · exact Or.inr ⟨List.mem_cons_self _ _, by simpa using hd⟩
    · rcases ih h with h | ⟨h1, h2⟩
      · exact Or.inl h
      · exact Or.inr ⟨List.mem_cons_of_mem d h1, h2⟩

theorem runSub_isPrefix {p : Char → Bool} {u l : List Char}
    (hu : ∀ c ∈ u, p c = false ∧ c ≠ ' ') (h : u <+: runSub p l) : u <+: l := by
  induction l using runSub_induction (p := p) generalizing u with
  | h1 =>
    rw [runSub_nil] at h
    exact List.prefix_nil.mpr (List.prefix_nil.mp h)
  | h2 d cs hd ih =>
    rw [runSub_cons, if_pos hd] at h
    cases u with
    | nil => exact List.nil_prefix
    | cons a as =>
      obtain ⟨rfl, _⟩ := List.cons_prefix_cons.mp h
      exact absurd rfl (hu ' ' (List.mem_cons_self _ _)).2
  | h3 d cs hd ih =>
    rw [runSub_cons, if_neg (by simp [hd])] at h
    cases u with
    | nil => exact List.nil_prefix
    | cons a as =>
      obtain ⟨rfl, has⟩ := List.cons_prefix_cons.mp h
      exact List.cons_prefix_cons.mpr
        ⟨rfl, ih (fun c hc => hu c (List.mem_cons_of_mem a hc)) has⟩

theorem runSub_isInfix {p : Char → Bool} {u l : List Char} (hne : u ≠ [])
    (hu : ∀ c ∈ u, p c = false ∧ c ≠ ' ') (h : u <:+: runSub p l) : u <:+: l := by
  induction l using runSub_induction (p := p) with
  | h1 =>
    rw [runSub_nil] at h
    exact absurd (List.infix_nil.mp h) hne
  | h2 d cs hd ih =>
    rw [runSub_cons, if_pos hd] at h
    rcases List.infix_cons_iff.mp h with h | h
    · cases u with
      | nil => exact absurd rfl hne
      | cons a as =>
        obtain ⟨rfl, _⟩ := List.cons_prefix_cons.mp h
        exact absurd rfl (hu ' ' (List.mem_cons_self _ _)).2
    · exact ((ih h).trans (List.dropWhile_suffix p).isInfix).trans
        (List.suffix_cons d cs).isInfix
  | h3 d cs hd ih =>
    rw [runSub_cons, if_neg (by simp [hd])] at h
    rcases List.infix_cons_iff.mp h with h | h
    · cases u with
      | nil => exact absurd rfl hne
      | cons a as =>
        obtain ⟨rfl, has⟩ := List.cons_prefix_cons.mp h
        exact (List.cons_prefix_cons.mpr
          ⟨rfl, runSub_isPrefix (fun c hc => hu c (List.mem_cons_of_mem a hc)) has⟩).isInfix
    · exact (ih h).trans (List.suffix_cons d cs).isInfix

/-! ## Strip lemmas -/

theorem stripLeft_suffix (l : List Char) : stripLeft l <:+ l :=
  List.dropWhile_suffix _

theorem prefix_stripRight (l : List Char) : stripRight l <+: l := by
  unfold stripRight
  simpa using (List.dropWhile_suffix (l := l.reverse) pyIsSpaceChar).reverse

theorem infix_pyStripChars (l : List Char) : pyStripChars l <:+: l :=
  ((prefix_stripRight (stripLeft l)).isInfix).trans (stripLeft_suffix l).isInfix

theorem infix_wsNormalize (l : List Char) :
    wsNormalize l <:+: runSub pyIsSpaceChar l :=
  infix_pyStripChars _

/-! ## URL pattern shape lemmas -/

theorem urlBodyLen_some {r : List Char} {m : Nat} (h : urlBodyLen r = some m) :
    r.takeWhile isUrlBodyChar ≠ [] ∧ (r.takeWhile isUrlBodyChar).length = m := by
  unfold urlBodyLen at h
  split at h
  · simp at h
  · rename_i hlen
    refine ⟨fun hnil => hlen (by rw [hnil]; rfl), by simpa using h⟩

theorem matchUrlAt_shaped {s : List Char} {n : Nat} (h : matchUrlAt s = some n) :
    ∃ u, UrlShaped u ∧ u <+: s := by
  unfold matchUrlAt at h
  split at h
  · rename_i r
    obtain ⟨m, hm, rfl⟩ := Option.map_eq_some'.mp h
    obtain ⟨hne, hlen⟩ := urlBodyLen_some hm
    exact ⟨'h' :: 't' :: 't' :: 'p' :: 's' :: ':' :: '/' :: '/' ::
      r.takeWhile isUrlBodyChar, ⟨r.takeWhile isUrlBodyChar, Or.inr rfl, hne,
      fun c hc => List.mem_takeWhile_imp hc⟩,
      by simp only [List.cons_prefix_cons, true_and]
         exact List.takeWhile_prefix _⟩
  · rename_i r
    obtain ⟨m, hm, rfl⟩ := Option.map_eq_some'.mp h
    obtain ⟨hne, hlen⟩ := urlBodyLen_some hm
    exact ⟨'h' :: 't' :: 't' :: 'p' :: ':' :: '/' :: '/' ::
      r.takeWhile isUrlBodyChar, ⟨r.takeWhile isUrlBodyChar, Or.inl rfl, hne,
      fun c hc => List.mem_takeWhile_imp hc⟩,
      by simp only [List.cons_prefix_cons, true_and]
         exact List.takeWhile_prefix _⟩
  · simp at h

theorem urlShaped_match {u : List Char} (hu : UrlShaped u) (r : List Char) :
    (matchUrlAt (u ++ r)).isSome = true := by
  obtain ⟨b, hcase, hne, hb⟩ := hu
  obtain ⟨b0, b', rfl⟩ : ∃ b0 b', b = b0 :: b' := by
    cases b with
    | nil => exact absurd rfl hne
    | cons b0 b' => exact ⟨b0, b', rfl⟩
  have hb0 : isUrlBodyChar b0 = true := hb b0 (List.mem_cons_self _ _)
  have hbody : urlBodyLen (b0 :: (b' ++ r)) =
      some ((b0 :: (b' ++ r)).takeWhile isUrlBodyChar).length := by
    unfold urlBodyLen
    rw [List.takeWhile_cons_of_pos hb0]
    simp
  rcases hcase with rfl | rfl
  · rw [show ('h' :: 't' :: 't' :: 'p' :: ':' :: '/' :: '/' :: (b0 :: b')) ++ r =
      'h' :: 't' :: 't' :: 'p' :: ':' :: '/' :: '/' :: (b0 :: (b' ++ r)) from rfl]
    rw [show matchUrlAt
        ('h' :: 't' :: 't' :: 'p' :: ':' :: '/' :: '/' :: (b0 :: (b' ++ r))) =
      (urlBodyLen (b0 :: (b' ++ r))).map (fun n => 7 + n) from rfl]
    rw [hbody]
    rfl
  · rw [show ('h' :: 't' :: 't' :: 'p' :: 's' :: ':' :: '/' :: '/' :: (b0 :: b')) ++ r =
      'h' :: 't' :: 't' :: 'p' :: 's' :: ':' :: '/' :: '/' :: (b0 :: (b' ++ r)) from rfl]
    rw [show matchUrlAt
        ('h' :: 't' :: 't' :: 'p' :: 's' :: ':' :: '/' :: '/' :: (b0 :: (b' ++ r))) =
      (urlBodyLen (b0 :: (b' ++ r))).map (fun n => 8 + n) from rfl]
    rw [hbody]
    rfl

theorem urlShaped_ne_nil {u : List Char} (hu : UrlShaped u) : u ≠ [] := by
  obtain ⟨b, hcase, _, _⟩ := hu
  rcases hcase with rfl | rfl <;> exact List.cons_ne_nil _ _

theorem isUrlBodyChar_not_space {c : Char} (h : isUrlBodyChar c = true) :
    pyIsSpaceChar c = false := by
  rw [Bool.eq_false_iff]
  intro hs
  simp only [isUrlBodyChar, Bool.or_eq_true, Bool.and_eq_true, decide_eq_true_eq] at h
  simp only [pyIsSpaceChar, Bool.or_eq_true, decide_eq_true_eq] at hs
  omega

theorem urlShaped_not_space {u : List Char} (hu : UrlShaped u) :
    ∀ c ∈ u, pyIsSpaceChar c = false ∧ c ≠ ' ' := by
  have hch : ∀ c : Char, pyIsSpaceChar c = false → pyIsSpaceChar c = false ∧ c ≠ ' ' :=
    fun c hc => ⟨hc, fun he => by rw [he] at hc; exact absurd hc (by decide)⟩
  obtain ⟨b, hcase, hne, hb⟩ := hu
  rcases hcase with rfl | rfl <;>
  · intro c hc
    simp only [List.mem_cons] at hc
    rcases hc with rfl | rfl | rfl | rfl | rfl | rfl | rfl | hc
    case _ => exact hch _ (by decide)
    case _ => exact hch _ (by decide)
    case _ => exact hch _ (by decide)
    case _ => exact hch _ (by decide)
    case _ => exact hch _ (by decide)
    case _ => exact hch _ (by decide)
    case _ => exact hch _ (by decide)
    all_goals first
      | exact hch _ (isUrlBodyChar_not_space (hb c hc))
      | (rcases hc with rfl | hc
         · exact hch _ (by decide)
         · exact hch _ (isUrlBodyChar_not_space (hb c hc)))

theorem hasMatch_url_iff {l : List Char} :
    hasMatch matchUrlAt l = true ↔ ∃ u, UrlShaped u ∧ u <:+: l := by
  constructor
  · intro h
    obtain ⟨s, hs, hne, hsome⟩ := hasMatch_to_suffix matchUrlAt h
    obtain ⟨n, hn⟩ := Option.isSome_iff_exists.mp hsome
    obtain ⟨u, hu, hpre⟩ := matchUrlAt_shaped hn
    exact ⟨u, hu, hpre.isInfix.trans hs.isInfix⟩
  · rintro ⟨u, hu, pre, suf, rfl⟩
    refine hasMatch_of_suffix matchUrlAt (s := u ++ suf) ⟨pre, by rw [List.append_assoc]⟩
      ?_ (urlShaped_match hu suf)
    intro hnil
    exact urlShaped_ne_nil hu (by simpa using congrArg (List.take u.length) hnil)

/-! ## Email pattern shape lemmas -/

theorem emailFindDot_sound {R : List Char} :
    ∀ {f k w}, emailFindDot R f = some (k, w) →
      1 ≤ k ∧ R.get? k = some '.' ∧
      w = ((R.drop (k + 1)).takeWhile pyIsWordChar).length ∧ 0 < w := by
  intro f
  induction f with
  | zero => intro k w h; simp [emailFindDot] at h
  | succ f ih =>
    intro k w h
    rw [emailFindDot] at h
    split at h
    · rename_i hcond
      cases h
      exact ⟨by omega, hcond.1, rfl, hcond.2⟩
    · exact ih h

theorem emailFindDot_complete {R : List Char} :
    ∀ {f k}, 1 ≤ k → k ≤ f → R.get? k = some '.' →
      0 < ((R.drop (k + 1)).takeWhile pyIsWordChar).length →
      (emailFindDot R f).isSome = true := by
  intro f
  induction f with
  | zero => intro k h1 h2 _ _; omega
  | succ f ih =>
    intro k h1 h2 hdot hpos
    rw [emailFindDot]
    split
    · rfl
    · rename_i hcond
      rcases Nat.lt_or_ge k (f + 1) with hlt | hge
      · exact ih h1 (by omega) hdot hpos
      · exfalso
        have hk : k = f + 1 := by omega
        subst hk
        exact hcond ⟨hdot, hpos⟩

theorem takeWhile_append_of_all {p : Char → Bool} {a x : List Char}
    (h : ∀ c ∈ a, p c = true) : (a ++ x).takeWhile p = a ++ x.takeWhile p := by
  induction a with
  | nil => rfl
  | cons c cs ih =>
    rw [List.cons_append, List.takeWhile_cons_of_pos (h c (List.mem_cons_self _ _)),
      ih (fun d hd => h d (List.mem_cons_of_mem c hd)), List.cons_append]

theorem matchEmailAt_shaped {s : List Char} {n : Nat} (h : matchEmailAt s = some n) :
    ∃ u, EmailShaped u ∧ u <+: s := by
  unfold matchEmailAt at h
  split at h
  · simp at h
  · rename_i hlen
    split at h
    · rename_i rest hdrop
      split at h
      · rename_i k w hfind
        obtain ⟨hk1, hdot, hw, hwpos⟩ := emailFindDot_sound hfind
        set A := s.takeWhile isEmailAChar with hA
        clear_value A
        set R := rest.takeWhile isEmailAChar with hR
        clear_value R
        have hklt : k < R.length := by
          rcases List.get?_eq_some.mp hdot with ⟨hlt, _⟩
          exact hlt
        have hRsplit : R = R.take k ++ '.' :: R.drop (k + 1) := by
          conv_lhs => rw [← List.take_append_drop k R]
          rw [List.drop_eq_getElem_cons hklt]
          congr 2
          rcases List.get?_eq_some.mp hdot with ⟨hlt2, hget⟩
          simpa [List.get_eq_getElem] using hget
        refine ⟨A ++ '@' :: (R.take k ++ '.' :: (R.drop (k + 1)).takeWhile pyIsWordChar),
          ⟨A, R.take k, (R.drop (k + 1)).takeWhile pyIsWordChar, rfl,
            ?_, ?_, ?_, ?_, ?_, fun c hc => List.mem_takeWhile_imp hc⟩, ?_⟩
        · intro hnil
          exact hlen (by rw [hnil]; rfl)
        · intro c hc
          rw [hA] at hc
          exact List.mem_takeWhile_imp hc
        · have hlen2 : (R.take k).length = k := by
            rw [List.length_take]
            omega
          intro hnil
          rw [hnil] at hlen2
          simp at hlen2
          omega
        · intro c hc
          have : c ∈ R := List.mem_of_mem_take hc
          rw [hR] at this
          exact List.mem_takeWhile_imp this
        · intro hnil
          rw [hnil] at hw
          simp at hw
          omega
        · have hs : s = A ++ '@' :: rest := by
            have htake : A = s.take A.length := by
              conv_lhs => rw [hA]
              rw [hA]
              exact List.prefix_iff_eq_take.mp (List.takeWhile_prefix _)
            conv_lhs => rw [← List.take_append_drop A.length s]
            rw [← htake, hdrop]
          have hrest : (R.take k ++ '.' :: (R.drop (k + 1)).takeWhile pyIsWordChar) <+: rest := by
            have h1 : (R.take k ++ '.' :: (R.drop (k + 1)).takeWhile pyIsWordChar) <+: R := by
              conv_rhs => rw [hRsplit]
              refine ⟨(R.drop (k + 1)).dropWhile pyIsWordChar, ?_⟩
              rw [List.append_assoc]
              congr 2
              rw [List.cons_append]
              congr 1
              exact List.takeWhile_append_dropWhile _ _
            refine h1.trans ?_
            rw [hR]
            exact List.takeWhile_prefix _
          rw [hs]
          obtain ⟨t, ht⟩ := hrest
          exact ⟨t, by rw [← ht]; simp⟩
      · simp at h
    · simp at h

theorem matchEmailAt_eq {a rest : List Char} (hane : a ≠ [])
    (ha : ∀ c ∈ a, isEmailAChar c = true) :
    matchEmailAt (a ++ '@' :: rest) =
      match emailFindDot (rest.takeWhile isEmailAChar)
          (rest.takeWhile isEmailAChar).length with
      | some (k, w) => some (a.length + 1 + k + 1 + w)
      | none => none := by
  have hA : (a ++ '@' :: rest).takeWhile isEmailAChar = a := by
    rw [takeWhile_append_of_all ha, List.takeWhile_cons_of_neg (by decide)]
    simp
  unfold matchEmailAt
  rw [hA, if_neg (by simpa using hane), List.drop_left]
  rfl

theorem emailShaped_match {u : List Char} (hu : EmailShaped u) (r : List Char) :
    (matchEmailAt (u ++ r)).isSome = true := by
  obtain ⟨a, b, w, rfl, hane, ha, hbne, hb, hwne, hw⟩ := hu
  obtain ⟨w0, w', rfl⟩ : ∃ w0 w', w = w0 :: w' := by
    cases w with
    | nil => exact absurd rfl hwne
    | cons w0 w' => exact ⟨w0, w', rfl⟩
  have hw0 : pyIsWordChar w0 = true := hw w0 (List.mem_cons_self _ _)
  have hw0A : isEmailAChar w0 = true := by simp [isEmailAChar, hw0]
  have hl : (a ++ '@' :: (b ++ '.' :: (w0 :: w'))) ++ r =
      a ++ '@' :: (b ++ '.' :: (w0 :: (w' ++ r))) := by simp
  rw [hl, matchEmailAt_eq hane ha]
  have hR : (b ++ '.' :: (w0 :: (w' ++ r))).takeWhile isEmailAChar =
      b ++ '.' :: ((w0 :: (w' ++ r)).takeWhile isEmailAChar) := by
    rw [takeWhile_append_of_all hb, List.takeWhile_cons_of_pos (by decide)]
  have hT : (w0 :: (w' ++ r)).takeWhile isEmailAChar =
      w0 :: (w' ++ r).takeWhile isEmailAChar := List.takeWhile_cons_of_pos hw0A
  have hfind : (emailFindDot ((b ++ '.' :: (w0 :: (w' ++ r))).takeWhile isEmailAChar)
      ((b ++ '.' :: (w0 :: (w' ++ r))).takeWhile isEmailAChar).length).isSome = true := by
    rw [hR, hT]
    apply emailFindDot_complete (k := b.length)
    · have := List.length_pos.mpr hbne
      omega
    · simp
    · rw [List.get?_append_right (by omega)]
      simp
    · have hdrop : (b ++ '.' :: (w0 :: (w' ++ r).takeWhile isEmailAChar)).drop
          (b.length + 1) = w0 :: (w' ++ r).takeWhile isEmailAChar := by
        rw [show b ++ '.' :: (w0 :: (w' ++ r).takeWhile isEmailAChar) =
          (b ++ ['.']) ++ (w0 :: (w' ++ r).takeWhile isEmailAChar) by simp,
          List.drop_left' (by simp)]
      rw [hdrop, List.takeWhile_cons_of_pos hw0]
      simp
  obtain ⟨kw, hkw⟩ := Option.isSome_iff_exists.mp hfind
  obtain ⟨k, w2⟩ := kw
  rw [hkw]
  rfl

theorem emailShaped_ne_nil {u : List Char} (hu : EmailShaped u) : u ≠ [] := by
  obtain ⟨a, b, w, rfl, _⟩ := hu
  simp

theorem hasMatch_email_iff {l : List Char} :
    hasMatch matchEmailAt l = true ↔ ∃ u, EmailShaped u ∧ u <:+: l := by
  constructor
  · intro h
    obtain ⟨s, hs, hne, hsome⟩ := hasMatch_to_suffix matchEmailAt h
    obtain ⟨n, hn⟩ := Option.isSome_iff_exists.mp hsome
    obtain ⟨u, hu, hpre⟩ := matchEmailAt_shaped hn
    exact ⟨u, hu, hpre.isInfix.trans hs.isInfix⟩
  · rintro ⟨u, hu, pre, suf, rfl⟩
    refine hasMatch_of_suffix matchEmailAt (s := u ++ suf) ⟨pre, by rw [List.append_assoc]⟩
      ?_ (emailShaped_match hu suf)
    intro hnil
    exact emailShaped_ne_nil hu (by simpa using congrArg (List.take u.length) hnil)

/-! ## Further character-class facts -/

theorem pyIsWordChar_not_space {c : Char} (h : pyIsWordChar c = true) :
    pyIsSpaceChar c = false := by
  rw [Bool.eq_false_iff]
  intro hs
  simp only [pyIsWordChar, pyIsDigitChar, Bool.or_eq_true, Bool.and_eq_true,
    decide_eq_true_eq] at h
  simp only [pyIsSpaceChar, Bool.or_eq_true, decide_eq_true_eq] at hs
  omega

theorem isEmailAChar_not_space {c : Char} (h : isEmailAChar c = true) :
    pyIsSpaceChar c = false := by
  simp only [isEmailAChar, Bool.or_eq_true, decide_eq_true_eq] at h
  rcases h with (h | rfl) | rfl
  · exact pyIsWordChar_not_space h
  · decide
  · decide

theorem not_space_ne_space {c : Char} (h : pyIsSpaceChar c = false) :
    pyIsSpaceChar c = false ∧ c ≠ ' ' :=
  ⟨h, fun he => by rw [he] at h; exact absurd h (by decide)⟩

theorem emailShaped_not_space {u : List Char} (hu : EmailShaped u) :
    ∀ c ∈ u, pyIsSpaceChar c = false ∧ c ≠ ' ' := by
  obtain ⟨a, b, w, rfl, _, ha, _, hb, _, hw⟩ := hu
  intro c hc
  simp only [List.mem_append, List.mem_cons] at hc
  rcases hc with hc | rfl | hc | rfl | hc
  · exact not_space_ne_space (isEmailAChar_not_space (ha c hc))
  · exact not_space_ne_space (by decide)
  · exact not_space_ne_space (isEmailAChar_not_space (hb c hc))
  · exact not_space_ne_space (by decide)
  · exact not_space_ne_space (pyIsWordChar_not_space (hw c hc))

theorem urlShaped_mem_colon {u : List Char} (hu : UrlShaped u) : ':' ∈ u := by
  obtain ⟨b, hcase, _, _⟩ := hu
  rcases hcase with rfl | rfl <;> simp

theorem emailShaped_mem_at {u : List Char} (hu : EmailShaped u) : '@' ∈ u := by
  obtain ⟨a, b, w, rfl, _⟩ := hu
  simp

/-! ## Commutation of the passes with lowercasing -/

theorem dropWhile_map_of_inv {p : Char → Bool} {f : Char → Char}
    (hf : ∀ c, p (f c) = p c) (l : List Char) :
    (l.map f).dropWhile p = (l.dropWhile p).map f := by
  rw [List.dropWhile_map]
  have hpf : (p ∘ f) = p := funext hf
  rw [hpf]

theorem takeWhile_map_of_inv {p : Char → Bool} {f : Char → Char}
    (hf : ∀ c, p (f c) = p c) (l : List Char) :
    (l.map f).takeWhile p = (l.takeWhile p).map f := by
  rw [List.takeWhile_map]
  have hpf : (p ∘ f) = p := funext hf
  rw [hpf]

theorem runSub_map_of_inv {p : Char → Bool} {f : Char → Char}
    (hf : ∀ c, p (f c) = p c) (hsp : f ' ' = ' ') (l : List Char) :
    runSub p (l.map f) = (runSub p l).map f := by
  induction l using runSub_induction (p := p) with
  | h1 => simp [runSub_nil]
  | h2 d cs hd ih =>
    rw [List.map_cons, runSub_cons, if_pos (by rw [hf d]; exact hd),
      runSub_cons, if_pos hd, List.map_cons, hsp,
      dropWhile_map_of_inv hf, ih]
  | h3 d cs hd ih =>
    rw [List.map_cons, runSub_cons, if_neg (by rw [hf d]; exact hd),
      runSub_cons, if_neg hd, List.map_cons, ih]

theorem stripLeft_map_of_inv {f : Char → Char}
    (hf : ∀ c, pyIsSpaceChar (f c) = pyIsSpaceChar c) (l : List Char) :
    stripLeft (l.map f) = (stripLeft l).map f :=
  dropWhile_map_of_inv hf l

theorem stripRight_map_of_inv {f : Char → Char}
    (hf : ∀ c, pyIsSpaceChar (f c) = pyIsSpaceChar c) (l : List Char) :
    stripRight (l.map f) = (stripRight l).map f := by
  unfold stripRight
  rw [← List.map_reverse, dropWhile_map_of_inv hf, List.map_reverse]

theorem wsNormalize_map_of_inv {f : Char → Char}
    (hf : ∀ c, pyIsSpaceChar (f c) = pyIsSpaceChar c) (hsp : f ' ' = ' ')
    (l : List Char) : wsNormalize (l.map f) = (wsNormalize l).map f := by
  unfold wsNormalize pyStripChars
  rw [runSub_map_of_inv hf hsp, stripLeft_map_of_inv hf, stripRight_map_of_inv hf]

/-! ## Characters appearing in pass outputs -/

theorem charSub_eq_self {p : Char → Bool} {l : List Char}
    (h : ∀ c ∈ l, p c = false) : charSub p l = l := by
  unfold charSub
  conv_rhs => rw [← List.map_id l]
  apply List.map_congr_left
  intro c hc
  rw [h c hc]
  rfl

theorem mem_pyStripChars {l : List Char} {c : Char} (h : c ∈ pyStripChars l) :
    c ∈ l :=
  (infix_pyStripChars l).sublist.mem h

theorem mem_wsNormalize {l : List Char} {c : Char} (h : c ∈ wsNormalize l) :
    c = ' ' ∨ (c ∈ l ∧ pyIsSpaceChar c = true) ∨ c ∈ l := by
  have h1 : c ∈ runSub pyIsSpaceChar l := mem_pyStripChars h
  rcases runSub_mem h1 with h2 | ⟨h2, _⟩
  · exact Or.inl h2
  · exact Or.inr (Or.inr h2)

/-! ## Whitespace normalisation is idempotent -/

theorem dropWhile_head_false {p : Char → Bool} {l : List Char} :
    ∀ d, (l.dropWhile p).head? = some d → p d = false := by
  induction l with
  | nil => intro d h; simp at h
  | cons c cs ih =>
    intro d h
    by_cases hc : p c = true
    · rw [List.dropWhile_cons_of_pos hc] at h
      exact ih d h
    · rw [List.dropWhile_cons_of_neg hc] at h
      cases List.head?_cons.symm.trans h
      exact Bool.eq_false_iff.mpr hc

theorem runSub_head_false {p : Char → Bool} {l : List Char}
    (hl : ∀ d, l.head? = some d → p d = false) :
    ∀ d, (runSub p l).head? = some d → p d = false := by
  cases l with
  | nil => intro d h; rw [runSub_nil] at h; simp at h
  | cons c cs =>
    intro d h
    have hc : p c = false := hl c rfl
    rw [runSub_cons, if_neg (by simp [hc])] at h
    cases List.head?_cons.symm.trans h
    exact hc

theorem nmMid_cons_nonspace {c : Char} {X : List Char}
    (hc : pyIsSpaceChar c = false) (hX : nmMid X = true) :
    nmMid (c :: X) = true := by
  cases X with
  | nil => simp [nmMid, hc]
  | cons d cs => simp [nmMid, hc, hX]

theorem nmMid_cons_space_head {X : List Char} (hX : nmMid X = true)
    (hhead : ∀ d, X.head? = some d → pyIsSpaceChar d = false) :
    nmMid (' ' :: X) = true := by
  cases X with
  | nil => decide
  | cons d cs =>
    have hd : pyIsSpaceChar d = false := hhead d rfl
    simp [nmMid, hd, hX]

theorem nmMid_runSub_sp (l : List Char) :
    nmMid (runSub pyIsSpaceChar l) = true := by
  induction l using runSub_induction (p := pyIsSpaceChar) with
  | h1 => rw [runSub_nil]; rfl
  | h2 d cs hd ih =>
    rw [runSub_cons, if_pos hd]
    exact nmMid_cons_space_head ih
      (runSub_head_false (fun e he => dropWhile_head_false e he))
  | h3 d cs hd ih =>
    rw [runSub_cons, if_neg (by simp [hd])]
    exact nmMid_cons_nonspace (Bool.eq_false_iff.mpr hd) ih

theorem nmMid_tail {c : Char} {cs : List Char} (h : nmMid (c :: cs) = true) :
    nmMid cs = true := by
  cases cs with
  | nil => rfl
  | cons d ds =>
    rw [nmMid, Bool.and_eq_true] at h
    exact h.2

theorem nmMid_dropWhile {p : Char → Bool} {l : List Char} (h : nmMid l = true) :
    nmMid (l.dropWhile p) = true := by
  induction l with
  | nil => exact h
  | cons c cs ih =>
    by_cases hc : p c = true
    · rw [List.dropWhile_cons_of_pos hc]
      exact ih (nmMid_tail h)
    · rw [List.dropWhile_cons_of_neg hc]
      exact h

theorem nmMid_append_left {x y : List Char} (h : nmMid (x ++ y) = true) :
    nmMid x = true := by
  induction x with
  | nil => rfl
  | cons c x' ih =>
    cases x' with
    | nil =>
      cases y with
      | nil => exact h
      | cons d ys =>
        rw [List.cons_append, List.nil_append, nmMid, Bool.and_eq_true] at h
        have h1 := h.1
        rw [Bool.or_eq_true] at h1
        rcases h1 with h1 | h1
        · simp [nmMid, h1]
        · rw [Bool.and_eq_true] at h1
          simp [nmMid]
          right
          simpa using h1.1
    | cons d x'' =>
      rw [List.cons_append, List.cons_append, nmMid, Bool.and_eq_true] at h
      rw [nmMid, Bool.and_eq_true]
      exact ⟨h.1, ih (by rw [List.cons_append]; exact h.2)⟩

theorem nmMid_runSub_eq {y : List Char} (h : nmMid y = true) :
    runSub pyIsSpaceChar y = y := by
  induction y using runSub_induction (p := pyIsSpaceChar) with
  | h1 => rw [runSub_nil]
  | h2 d cs hd ih =>
    rw [runSub_cons, if_pos hd]
    cases cs with
    | nil =>
      have hds : d = ' ' := by
        rw [nmMid, Bool.or_eq_true] at h
        rcases h with h1 | h1
        · rw [hd] at h1; simp at h1
        · simpa using h1
      rw [hds, show (List.dropWhile pyIsSpaceChar ([] : List Char)) = [] from rfl,
        runSub_nil]
    | cons e cs' =>
      rw [nmMid, Bool.and_eq_true] at h
      have hde : d = ' ' ∧ pyIsSpaceChar e = false := by
        have h1 := h.1
        rw [Bool.or_eq_true] at h1
        rcases h1 with h1 | h1
        · rw [hd] at h1; simp at h1
        · rw [Bool.and_eq_true] at h1
          exact ⟨by simpa using h1.1, by simpa using h1.2⟩
      rw [List.dropWhile_cons_of_neg (by simp [hde.2])] at ih ⊢
      rw [ih h.2, hde.1]
  | h3 d cs hd ih =>
    rw [runSub_cons, if_neg (by simp [hd])]
    rw [ih (nmMid_tail h)]

theorem dropWhile_idem {p : Char → Bool} (l : List Char) :
    (l.dropWhile p).dropWhile p = l.dropWhile p := by
  cases hd : l.dropWhile p with
  | nil => rfl
  | cons d ds =>
    have : p d = false := dropWhile_head_false d (by rw [hd]; rfl)
    rw [List.dropWhile_cons_of_neg (by simp [this])]

theorem stripRight_idem (w : List Char) : stripRight (stripRight w) = stripRight w := by
  unfold stripRight
  rw [List.reverse_reverse, dropWhile_idem]

theorem head?_stripRight {z : List Char} {d : Char}
    (h : (stripRight z).head? = some d) : z.head? = some d := by
  obtain ⟨t, ht⟩ : stripRight z <+: z := by
    unfold stripRight
    simpa using (List.dropWhile_suffix (l := z.reverse) pyIsSpaceChar).reverse
  cases hs : stripRight z with
  | nil => rw [hs] at h; simp at h
  | cons a rest =>
    rw [hs] at h ht
    cases List.head?_cons.symm.trans h
    rw [← ht]
    rfl

theorem stripLeft_eq_self_of_head {l : List Char}
    (h : ∀ d, l.head? = some d → pyIsSpaceChar d = false) : stripLeft l = l := by
  cases l with
  | nil => rfl
  | cons c cs =>
    exact List.dropWhile_cons_of_neg (by simp [h c rfl])

theorem pyStripChars_idem (l : List Char) :
    pyStripChars (pyStripChars l) = pyStripChars l := by
  unfold pyStripChars
  have hh : stripLeft (stripRight (stripLeft l)) = stripRight (stripLeft l) :=
    stripLeft_eq_self_of_head (fun d hd =>
      dropWhile_head_false d (head?_stripRight hd))
  rw [hh]
  exact stripRight_idem _

theorem nmMid_pyStripChars {y : List Char} (h : nmMid y = true) :
    nmMid (pyStripChars y) = true := by
  have h1 : nmMid (stripLeft y) = true := nmMid_dropWhile h
  obtain ⟨t, ht⟩ : stripRight (stripLeft y) <+: stripLeft y := by
    unfold stripRight
    simpa using (List.dropWhile_suffix (l := (stripLeft y).reverse) pyIsSpaceChar).reverse
  refine nmMid_append_left (x := pyStripChars y) (y := t) ?_
  show nmMid (stripRight (stripLeft y) ++ t) = true
  rw [ht]
  exact h1

theorem wsNormalize_idem (l : List Char) :
    wsNormalize (wsNormalize l) = wsNormalize l := by
  unfold wsNormalize
  rw [nmMid_runSub_eq (nmMid_pyStripChars (nmMid_runSub_sp l))]
  exact pyStripChars_idem _

/-! ## Transfer of matches backwards through the passes -/

theorem infix_runSub_not_space {p : Char → Bool} {u z : List Char} (hne : u ≠ [])
    (hsp : ∀ c ∈ u, c ≠ ' ') (h : u <:+: runSub p z) : u <:+: z :=
  runSub_isInfix hne
    (fun c hc => ⟨((runSub_mem (h.sublist.mem hc)).resolve_left (hsp c hc)).2, hsp c hc⟩) h

theorem infix_wsPass_not_space {u z : List Char} {b : Bool} (hne : u ≠ [])
    (hsp : ∀ c ∈ u, c ≠ ' ') (h : u <:+: wsPass b z) : u <:+: z := by
  cases b with
  | false => simpa [wsPass] using h
  | true =>
    refine infix_runSub_not_space hne hsp (List.IsInfix.trans ?_ (infix_wsNormalize z))
    simpa [wsPass] using h

theorem infix_numberPass_not_space {u z : List Char} {b : Bool} (hne : u ≠ [])
    (hsp : ∀ c ∈ u, c ≠ ' ') (h : u <:+: numberPass b z) : u <:+: z := by
  cases b with
  | false => simpa [numberPass] using h
  | true => exact infix_runSub_not_space hne hsp (by simpa [numberPass] using h)

theorem infix_map_preimage {f : Char → Char} {u l : List Char} (h : u <:+: l.map f) :
    ∃ v, v <:+: l ∧ u = v.map f := by
  obtain ⟨s, t, heq⟩ := h
  refine ⟨(l.drop s.length).take u.length,
    (List.take_prefix _ _).isInfix.trans (List.drop_suffix _ _).isInfix, ?_⟩
  have hl : l.map f = s ++ (u ++ t) := by rw [← heq, List.append_assoc]
  rw [List.map_take, List.map_drop, hl, List.drop_left, List.take_left]

theorem emailShaped_map_lower {u : List Char} (h : EmailShaped (u.map pyLowerChar)) :
    EmailShaped u := by
  obtain ⟨a, b, w, heq, hane, ha, hbne, hb, hwne, hw⟩ := h
  obtain ⟨u1, u2, rfl, ha1, h2⟩ := List.map_eq_append_iff.mp heq
  obtain ⟨d, u3, rfl, hd, h3⟩ := List.map_eq_cons_iff.mp h2
  obtain ⟨u4, u5, rfl, hb1, h5⟩ := List.map_eq_append_iff.mp h3
  obtain ⟨e, u6, rfl, he, h6⟩ := List.map_eq_cons_iff.mp h5
  have hdat : d = '@' := (pyLowerChar_eq_at d).mp hd
  have hedot : e = '.' := (pyLowerChar_eq_dot e).mp he
  subst hdat hedot
  refine ⟨u1, u4, u6, rfl, ?_, ?_, ?_, ?_, ?_, ?_⟩
  · intro hn
    rw [hn] at ha1
    exact hane (by simpa using ha1.symm)
  · intro c hc
    have hmem : pyLowerChar c ∈ a := ha1 ▸ List.mem_map_of_mem pyLowerChar hc
    have h4 := ha (pyLowerChar c) hmem
    rw [isEmailAChar_lower] at h4
    exact h4
  · intro hn
    rw [hn] at hb1
    exact hbne (by simpa using hb1.symm)
  · intro c hc
    have hmem : pyLowerChar c ∈ b := hb1 ▸ List.mem_map_of_mem pyLowerChar hc
    have h4 := hb (pyLowerChar c) hmem
    rw [isEmailAChar_lower] at h4
    exact h4
  · intro hn
    rw [hn] at h6
    exact hwne (by simpa using h6.symm)
  · intro c hc
    have hmem : pyLowerChar c ∈ w := h6 ▸ List.mem_map_of_mem pyLowerChar hc
    have h4 := hw (pyLowerChar c) hmem
    rw [pyIsWordChar_lower] at h4
    exact h4

theorem url_free_after_passes {l : List Char} {nb lb sb : Bool}
    (h1 : lb = false → hasMatch matchUrlAt l = false)
    (h2 : lb = true → hasMatch matchUrlAt (l.map pyLowerChar) = false) :
    hasMatch matchUrlAt (wsPass sb (lowerPass lb (numberPass nb l))) = false := by
  rw [Bool.eq_false_iff]
  intro hm
  obtain ⟨u, hu, hinf⟩ := hasMatch_url_iff.mp hm
  have hne := urlShaped_ne_nil hu
  have hsp : ∀ c ∈ u, c ≠ ' ' := fun c hc => (urlShaped_not_space hu c hc).2
  have hinf1 : u <:+: lowerPass lb (numberPass nb l) := infix_wsPass_not_space hne hsp hinf
  cases lb with
  | false =>
    have hinf2 : u <:+: l :=
      infix_numberPass_not_space hne hsp (by simpa [lowerPass] using hinf1)
    exact absurd (hasMatch_url_iff.mpr ⟨u, hu, hinf2⟩) (by simp [h1 rfl])
  | true =>
    have hcomm : (numberPass nb l).map pyLowerChar = numberPass nb (l.map pyLowerChar) := by
      cases nb with
      | false => simp [numberPass]
      | true =>
        simp only [numberPass, if_pos]
        exact (runSub_map_of_inv pyIsDigitChar_lower pyLowerChar_space l).symm
    have hinf2 : u <:+: numberPass nb (l.map pyLowerChar) := by
      rw [← hcomm]
      simpa [lowerPass] using hinf1
    have hinf3 : u <:+: l.map pyLowerChar := infix_numberPass_not_space hne hsp hinf2
    exact absurd (hasMatch_url_iff.mpr ⟨u, hu, hinf3⟩) (by simp [h2 rfl])

theorem email_free_after_passes {l : List Char} {nb lb sb : Bool}
    (h1 : hasMatch matchEmailAt l = false) :
    hasMatch matchEmailAt (wsPass sb (lowerPass lb (numberPass nb l))) = false := by
  rw [Bool.eq_false_iff]
  intro hm
  obtain ⟨u, hu, hinf⟩ := hasMatch_email_iff.mp hm
  have hne := emailShaped_ne_nil hu
  have hsp : ∀ c ∈ u, c ≠ ' ' := fun c hc => (emailShaped_not_space hu c hc).2
  have hinf1 : u <:+: lowerPass lb (numberPass nb l) := infix_wsPass_not_space hne hsp hinf
  cases lb with
  | false =>
    have hinf2 : u <:+: l :=
      infix_numberPass_not_space hne hsp (by simpa [lowerPass] using hinf1)
    exact absurd (hasMatch_email_iff.mpr ⟨u, hu, hinf2⟩) (by simp [h1])
  | true =>
    have hinf2 : u <:+: (numberPass nb l).map pyLowerChar := by
      simpa [lowerPass] using hinf1
    obtain ⟨v, hv, rfl⟩ := infix_map_preimage hinf2
    have huv : EmailShaped v := emailShaped_map_lower hu
    have hnev := emailShaped_ne_nil huv
    have hspv : ∀ c ∈ v, c ≠ ' ' := fun c hc => (emailShaped_not_space huv c hc).2
    have hinf3 : v <:+: l := infix_numberPass_not_space hnev hspv hv
    exact absurd (hasMatch_email_iff.mpr ⟨v, huv, hinf3⟩) (by simp [h1])

/-! ## Characters of the reduced pass output -/

theorem mem_wsPass {b : Bool} {z : List Char} {c : Char} (h : c ∈ wsPass b z) :
    c = ' ' ∨ c ∈ z := by
  cases b with
  | false => exact Or.inr (by simpa [wsPass] using h)
  | true =>
    rcases mem_wsNormalize (by simpa [wsPass] using h) with h1 | h1 | h1
    · exact Or.inl h1
    · exact Or.inr h1.1
    · exact Or.inr h1

theorem mem_lowerPass {b : Bool} {z : List Char} {c : Char} (h : c ∈ lowerPass b z) :
    (b = true ∧ ∃ d ∈ z, c = pyLowerChar d) ∨ (b = false ∧ c ∈ z) := by
  cases b with
  | false => exact Or.inr ⟨rfl, by simpa [lowerPass] using h⟩
  | true =>
    obtain ⟨d, hd, rfl⟩ := List.mem_map.mp (by simpa [lowerPass] using h)
    exact Or.inl ⟨rfl, d, hd, rfl⟩

theorem mem_numberPass {b : Bool} {z : List Char} {c : Char} (h : c ∈ numberPass b z) :
    c = ' ' ∨ (c ∈ z ∧ (b = true → pyIsDigitChar c = false)) := by
  cases b with
  | false => exact Or.inr ⟨by simpa [numberPass] using h, by simp⟩
  | true =>
    rcases runSub_mem (by simpa [numberPass] using h) with h1 | ⟨h1, h2⟩
    · exact Or.inl h1
    · exact Or.inr ⟨h1, fun _ => h2⟩

theorem chars_t_not_digit {l : List Char} {nb lb sb : Bool} (hnb : nb = true) :
    ∀ c ∈ wsPass sb (lowerPass lb (numberPass nb l)), pyIsDigitChar c = false := by
  intro c hc
  rcases mem_wsPass hc with rfl | hc1
  · decide
  rcases mem_lowerPass hc1 with ⟨_, d, hd, rfl⟩ | ⟨_, hc2⟩
  · rw [pyIsDigitChar_lower]
    rcases mem_numberPass hd with rfl | ⟨_, h2⟩
    · decide
    · exact h2 hnb
  · rcases mem_numberPass hc2 with rfl | ⟨_, h2⟩
    · decide
    · exact h2 hnb

theorem chars_t_not_punct {l : List Char} {nb lb sb : Bool}
    (hp : ∀ c ∈ l, pyIsPunctChar c = false) :
    ∀ c ∈ wsPass sb (lowerPass lb (numberPass nb l)), pyIsPunctChar c = false := by
  intro c hc
  rcases mem_wsPass hc with rfl | hc1
  · decide
  rcases mem_lowerPass hc1 with ⟨_, d, hd, rfl⟩ | ⟨_, hc2⟩
  · rw [pyIsPunctChar_lower]
    rcases mem_numberPass hd with rfl | ⟨h1, _⟩
    · decide
    · exact hp d h1
  · rcases mem_numberPass hc2 with rfl | ⟨h1, _⟩
    · decide
    · exact hp c h1

theorem chars_t_lower_fixed {l : List Char} {nb sb : Bool} :
    ∀ c ∈ wsPass sb (lowerPass true (numberPass nb l)), pyLowerChar c = c := by
  intro c hc
  rcases mem_wsPass hc with rfl | hc1
  · rfl
  rcases mem_lowerPass hc1 with ⟨_, d, _, rfl⟩ | ⟨hff, _⟩
  · exact pyLowerChar_idem d
  · exact absurd hff (by decide)

/-! ## Identity of the passes on already-clean input -/

theorem urlPass_id {b : Bool} {z : List Char}
    (h : b = true → hasMatch matchUrlAt z = false) : urlPass b z = z := by
  cases b with
  | false => simp [urlPass]
  | true => simpa [urlPass] using subScan_of_no_match matchUrlAt z (h rfl)

theorem emailPass_id {b : Bool} {z : List Char}
    (h : b = true → hasMatch matchEmailAt z = false) : emailPass b z = z := by
  cases b with
  | false => simp [emailPass]
  | true => simpa [emailPass] using subScan_of_no_match matchEmailAt z (h rfl)

theorem numberPass_id {b : Bool} {z : List Char}
    (h : b = true → ∀ c ∈ z, pyIsDigitChar c = false) : numberPass b z = z := by
  cases b with
  | false => simp [numberPass]
  | true => simpa [numberPass] using runSub_eq_self (h rfl)

theorem punctPass_id {b : Bool} {z : List Char}
    (h : b = true → ∀ c ∈ z, pyIsPunctChar c = false) : punctPass b z = z := by
  cases b with
  | false => simp [punctPass]
  | true => simpa [punctPass] using charSub_eq_self (h rfl)

theorem lowerPass_id {b : Bool} {z : List Char}
    (h : b = true → ∀ c ∈ z, pyLowerChar c = c) : lowerPass b z = z := by
  cases b with
  | false => simp [lowerPass]
  | true =>
    have hmap : z.map pyLowerChar = z := by
      conv_rhs => rw [← List.map_id z]
      exact List.map_congr_left (fun c hc => h rfl c hc)
    simpa [lowerPass] using hmap

theorem wsPass_id {b : Bool} {z : List Char}
    (h : b = true → wsNormalize z = z) : wsPass b z = z := by
  cases b with
  | false => simp [wsPass]
  | true => simpa [wsPass] using h rfl

/-! ## The clean_text passes under the freedom hypothesis -/

theorem freeOf_unpack {opts : CleanOptions} {l : List Char}
    (hfree : freeOfPerOptions opts l = true) :
    (opts.remove_urls = true → hasMatch matchUrlAt l = false) ∧
    (opts.remove_emails = true → hasMatch matchEmailAt l = false) ∧
    (opts.remove_punctuation = true → ∀ c ∈ l, pyIsPunctChar c = false) := by
  unfold freeOfPerOptions at hfree
  rw [Bool.and_eq_true, Bool.and_eq_true] at hfree
  obtain ⟨⟨hu, he⟩, hp⟩ := hfree
  refine ⟨?_, ?_, ?_⟩
  · intro h
    rw [h] at hu
    simpa using hu
  · intro h
    rw [h] at he
    simpa using he
  · intro h c hc
    rw [h] at hp
    simp only [Bool.not_true, Bool.false_or, List.all_eq_true] at hp
    simpa using hp c hc

theorem cleanPasses_free {opts : CleanOptions} {l : List Char}
    (hfree : freeOfPerOptions opts l = true) :
    cleanPasses opts l =
      wsPass opts.strip_whitespace (lowerPass opts.lowercase
        (numberPass opts.remove_numbers l)) := by
  obtain ⟨hu, he, hp⟩ := freeOf_unpack hfree
  have hpn : opts.remove_punctuation = true →
      ∀ c ∈ numberPass opts.remove_numbers l, pyIsPunctChar c = false := by
    intro hpb c hc
    rcases mem_numberPass hc with rfl | ⟨h1, _⟩
    · decide
    · exact hp hpb c h1
  unfold cleanPasses
  rw [urlPass_id hu, emailPass_id he, punctPass_id hpn]

/-- C7: On input that is free of URLs, emails and punctuation for the active
options, and whose lowercased form is also URL-free whenever both lowercasing
and URL removal are active, clean_text is idempotent: applying it twice gives
the same result as applying it once. -/
theorem cleanText_idempotent (opts : CleanOptions) (l : List Char)
    (hfree : freeOfPerOptions opts l = true)
    (hlow : opts.lowercase = true → opts.remove_urls = true →
      hasMatch matchUrlAt (l.map pyLowerChar) = false) :
    cleanText opts (cleanText opts l) = cleanText opts l := by
  by_cases hl : l.isEmpty = true
  · have h0 : cleanText opts l = [] := by rw [cleanText, if_pos hl]
    rw [h0]
    rfl
  · obtain ⟨hu, he, hp⟩ := freeOf_unpack hfree
    set T := wsPass opts.strip_whitespace (lowerPass opts.lowercase
      (numberPass opts.remove_numbers l)) with hT
    have hcl : cleanText opts l = T := by
      rw [cleanText, if_neg hl, cleanPasses_free hfree]
    rw [hcl]
    by_cases hTe : T.isEmpty = true
    · rw [cleanText, if_pos hTe]
      exact (List.isEmpty_iff.mp hTe).symm
    · rw [cleanText, if_neg hTe]
      have hurl : opts.remove_urls = true → hasMatch matchUrlAt T = false := by
        intro hub
        rw [hT]
        exact url_free_after_passes (fun _ => hu hub) (fun hlb => hlow hlb hub)
      have hemail : opts.remove_emails = true → hasMatch matchEmailAt T = false := by
        intro heb
        rw [hT]
        exact email_free_after_passes (he heb)
      have hnum : opts.remove_numbers = true → ∀ c ∈ T, pyIsDigitChar c = false := by
        intro hnb c hc
        rw [hT] at hc
        exact chars_t_not_digit hnb c hc
      have hpu : opts.remove_punctuation = true → ∀ c ∈ T, pyIsPunctChar c = false := by
        intro hpb c hc
        rw [hT] at hc
        exact chars_t_not_punct (hp hpb) c hc
      have hlo : opts.lowercase = true → ∀ c ∈ T, pyLowerChar c = c := by
        intro hlb c hc
        rw [hT, hlb] at hc
        exact chars_t_lower_fixed c hc
      have hws : opts.strip_whitespace = true → wsNormalize T = T := by
        intro hsb
        rw [hT, hsb]
        have hw1 : wsPass true (lowerPass opts.lowercase
            (numberPass opts.remove_numbers l)) =
            wsNormalize (lowerPass opts.lowercase
              (numberPass opts.remove_numbers l)) := by
          simp [wsPass]
        rw [hw1]
        exact wsNormalize_idem _
      unfold cleanPasses
      rw [urlPass_id hurl, emailPass_id hemail, numberPass_id hnum, punctPass_id hpu,
        lowerPass_id hlo, wsPass_id hws]

/-- C7 counterexample: with URL removal, lowercasing and whitespace stripping
active, the input HTTP://A.B is free of URLs, emails and punctuation for the
active options, yet clean_text is not idempotent on it: the first application
lowercases it to http://a.b, which the second application removes as a URL. -/
theorem cleanText_not_idempotent_cx :
    freeOfPerOptions ⟨true, true, false, false, true, true⟩ "HTTP://A.B".data = true ∧
    cleanText ⟨true, true, false, false, true, true⟩
        (cleanText ⟨true, true, false, false, true, true⟩ "HTTP://A.B".data) ≠
      cleanText ⟨true, true, false, false, true, true⟩ "HTTP://A.B".data := by
  constructor
  · decide
  · decide

/-- Witness for C7 at a concrete input: Hello World with all of URL, email
and punctuation removal, lowercasing and whitespace stripping active
satisfies both hypotheses, and clean_text is idempotent on it. -/
theorem cleanText_idempotent_witness :
    freeOfPerOptions ⟨true, true, true, false, true, true⟩ "Hello World".data = true ∧
    hasMatch matchUrlAt ("Hello World".data.map pyLowerChar) = false ∧
    cleanText ⟨true, true, true, false, true, true⟩
        (cleanText ⟨true, true, true, false, true, true⟩ "Hello World".data) =
      cleanText ⟨true, true, true, false, true, true⟩ "Hello World".data :=
  ⟨by decide, by decide,
    cleanText_idempotent ⟨true, true, true, false, true, true⟩ "Hello World".data
      (by decide) (fun _ _ => by decide)⟩

end BertopicPro
